import Mathlib

/-!
# Verification of the `cozad-union-find` disjoint-set client

Shallow embedding of `src/union_find/client.rs`.  The Rust `Vec<Node>` is a
`List Node`, the `HashMap<String, usize>` name index is an association list
where insertion prepends (so `List.lookup` sees the most recent binding, which
matches `HashMap::insert` replacing the old one), and `usize` values are `Nat`.
Fallible steps (out-of-range indexing / `unwrap` panics, the unguarded
`set_count -= 1` underflowing, or divergence of the unbounded root-walk loop)
are modelled by `Option`: `none` means the Rust call panics or diverges.
-/

namespace Cozad

/-- A node in the graph (struct `Node`, client.rs lines 8-18). -/
structure Node where
  uuid : String
  parent_index : Nat
  index : Nat
  size : Nat
deriving DecidableEq

/-- A connection between two node indexes (struct `BulkConnection`, lines 20-27). -/
structure BulkConnection where
  a : Nat
  b : Nat
deriving DecidableEq

/-- The union-find client (struct `Client`, lines 112-119). -/
structure Client where
  nodes : List Node
  node_map : List (String × Nat)
  set_count : Nat
deriving DecidableEq

namespace Client

/-- `Client::new` (lines 138-155): store holds only the placeholder record
`{uuid: "root", parent_index: 0, index: 0, size: 0}`; counter 0. -/
def new : Client :=
  { nodes := [{ uuid := "root", parent_index := 0, index := 0, size := 0 }],
    node_map := [],
    set_count := 0 }

/-- `Client::node_exists` (lines 321-324). -/
def node_exists (c : Client) (uuid : String) : Bool :=
  (c.node_map.lookup uuid).isSome

/-- `Client::node_index` (lines 332-339): the placeholder position 0 is
returned when the name is not in the map. -/
def node_index (c : Client) (uuid : String) : Nat :=
  match c.node_map.lookup uuid with
  | some i => i
  | none => 0

/-- Common body of `add_node` (lines 166-174) and of one iteration of the
`add_nodes_bulk` loop (lines 186-194): append a fresh self-parented record of
size 1 at position `nodes.len()`, index it by name, bump the counter. -/
def push_node (c : Client) (uuid : String) : Client :=
  { nodes := c.nodes ++
      [{ uuid := uuid, parent_index := c.nodes.length, index := c.nodes.length, size := 1 }],
    node_map := (uuid, c.nodes.length) :: c.node_map,
    set_count := c.set_count + 1 }

/-- `Client::add_node` (lines 164-176): no-op when the name is already indexed. -/
def add_node (c : Client) (uuid : String) : Client :=
  if c.node_exists uuid then c else c.push_node uuid

/-- `Client::add_nodes_bulk` (lines 184-196): unconditionally pushes a record
for every name, in order, with no duplicate check. -/
def add_nodes_bulk : Client → List String → Client
  | c, [] => c
  | c, uuid :: rest => (c.push_node uuid).add_nodes_bulk rest

end Client

/-- The `while node.parent_index != node.index` walk shared by
`find_root_index` (lines 270-274) and `find_root_index_bulk` (lines 287-291).
The Rust loop is unbounded; `fuel` makes it total, with `none` standing for
divergence (or for the `unwrap` panic when a parent index is out of range).
`findRootLoop_mono` below shows the result is independent of the fuel once it
is large enough, and the reachability invariant shows fuel `nodes.length + 1`
always suffices. -/
def findRootLoop (nodes : List Node) : Nat → Node → Option Nat
  | 0, _ => none
  | fuel + 1, node =>
    if node.parent_index = node.index then some node.parent_index
    else
      match nodes[node.parent_index]? with
      | some next => findRootLoop nodes fuel next
      | none => none

namespace Client

/-- `Client::find_root_index_bulk` (lines 286-292): `nodes.get(node_index).unwrap()`
then walk to the root. -/
def find_root_index_bulk (c : Client) (node_index : Nat) : Option Nat :=
  match c.nodes[node_index]? with
  | some node => findRootLoop c.nodes (c.nodes.length + 1) node
  | none => none

/-- `Client::find_root_index` (lines 267-278): resolve the name first; an
unknown name short-circuits to the placeholder position 0 without walking. -/
def find_root_index (c : Client) (uuid : String) : Option Nat :=
  let ni := c.node_index uuid
  if ni > 0 then
    match c.nodes[ni]? with
    | some node => findRootLoop c.nodes (c.nodes.length + 1) node
    | none => none
  else some 0

end Client

/-- The merge body shared verbatim by `connect_nodes` (lines 213-223) and the
`connect_nodes_bulk` loop (lines 241-251), reached when the two roots differ:
index both roots (panic if out of range), compare sizes, re-parent the loser
root under the winner root, add the loser's size into the winner's, and run
the unguarded `set_count -= 1` (panic on underflow). `x` is the re-parented
(loser) root, `y` the winner; the two `List.set`s write, in source order, the
loser's new parent and then the winner's new size — since `x ≠ y` at every
call site, reading `nx`/`ny` from the pre-state matches the Rust aliasing. -/
def reparent (c : Client) (x y : Nat) (nx ny : Node) (sc : Nat) : Client :=
  { c with
    nodes := (c.nodes.set x { nx with parent_index := y }).set y
        { ny with size := ny.size + nx.size },
    set_count := sc }

/-- Size comparison and branch selection of the merge (lines 213-223, 241-251):
`if nodes[ra].size < nodes[rb].size` re-parent `ra` under `rb`, else (ties
included) re-parent `rb` under `ra`. -/
def mergeRoots (c : Client) (ra rb : Nat) : Option Client :=
  match c.nodes[ra]?, c.nodes[rb]?, c.set_count with
  | some na, some nb, sc + 1 =>
    if na.size < nb.size then some (reparent c ra rb na nb sc)
    else some (reparent c rb ra nb na sc)
  | _, _, _ => none

namespace Client

/-- `Client::connect_nodes` (lines 206-225). -/
def connect_nodes (c : Client) (uuid_a uuid_b : String) : Option Client :=
  match c.find_root_index uuid_a, c.find_root_index uuid_b with
  | some ra, some rb => if ra = rb then some c else mergeRoots c ra rb
  | _, _ => none

/-- One iteration of the `connect_nodes_bulk` loop (lines 234-253): shift both
zero-based indexes by one to skip the placeholder, resolve roots by position,
then the same merge. -/
def connect_bulk_step (c : Client) (conn : BulkConnection) : Option Client :=
  match c.find_root_index_bulk (conn.a + 1), c.find_root_index_bulk (conn.b + 1) with
  | some ra, some rb => if ra = rb then some c else mergeRoots c ra rb
  | _, _ => none

/-- `Client::connect_nodes_bulk` (lines 233-254): the pairs are processed
strictly in sequence order. -/
def connect_nodes_bulk : Client → List BulkConnection → Option Client
  | c, [] => some c
  | c, conn :: rest =>
    match c.connect_bulk_step conn with
    | some c' => c'.connect_nodes_bulk rest
    | none => none

/-- `Client::disjoint_set_count` (lines 257-259). -/
def disjoint_set_count (c : Client) : Nat :=
  c.set_count

/-- `Client::nodes_connected` (lines 302-307): `uuid_a_root > 0 && uuid_a_root == uuid_b_root`. -/
def nodes_connected (c : Client) (uuid_a uuid_b : String) : Option Bool :=
  match c.find_root_index uuid_a, c.find_root_index uuid_b with
  | some ra, some rb => some (decide (ra > 0) && (ra == rb))
  | _, _ => none

/-- `Client::node_count` (lines 311-313): `nodes.len() - 1`. -/
def node_count (c : Client) : Nat :=
  c.nodes.length - 1

end Client

/-! ## Semantic view of the node store -/

/-- Parent position stored at position `i` (out-of-range positions are their
own parent, a convention never exercised on well-formed stores). -/
def parentAt (nodes : List Node) (i : Nat) : Nat :=
  match nodes[i]? with
  | some n => n.parent_index
  | none => i

/-- Size stored at position `i`. -/
def sizeAt (nodes : List Node) (i : Nat) : Nat :=
  match nodes[i]? with
  | some n => n.size
  | none => 0

/-- A position is a representative (root) when its record is self-parented. -/
def IsRoot (nodes : List Node) (i : Nat) : Prop :=
  parentAt nodes i = i

instance (nodes : List Node) (i : Nat) : Decidable (IsRoot nodes i) :=
  inferInstanceAs (Decidable (parentAt nodes i = i))

/-- `k` hops along parent links starting from position `i`. -/
def iterParent (nodes : List Node) : Nat → Nat → Nat
  | 0, i => i
  | k + 1, i => iterParent nodes k (parentAt nodes i)

/-- The parent chain from `i` reaches some representative in finitely many hops. -/
def Rooted (nodes : List Node) (i : Nat) : Prop :=
  ∃ k, IsRoot nodes (iterParent nodes k i)

/-- The parent chain from `i` reaches the representative `r`. -/
def RootsTo (nodes : List Node) (i r : Nat) : Prop :=
  ∃ k, iterParent nodes k i = r ∧ IsRoot nodes r

/-- Number of representatives among the real entities (positions ≥ 1). -/
def realRootCount (c : Client) : Nat :=
  ((Finset.range c.nodes.length).filter fun i => 1 ≤ i ∧ IsRoot c.nodes i).card

/-- The set of distinct representatives that the real entities resolve to. -/
def representatives (c : Client) : Finset Nat :=
  ((Finset.range c.nodes.length).filter fun i => 1 ≤ i).image
    fun i => (c.find_root_index_bulk i).getD 0

/-- Observable description of one union of the distinct roots `ra`, `rb`
(records `na`, `nb`): the counter drops by exactly one, and following
lines 215-221 / 243-249 the strictly smaller root is re-parented under the
other, whose size absorbs the loser's — ties go to the first root; every
other record is untouched. -/
def MergeSpec (c : Client) (ra rb : Nat) (na nb : Node) (c' : Client) : Prop :=
  c'.set_count + 1 = c.set_count ∧
  c'.nodes.length = c.nodes.length ∧
  c'.node_map = c.node_map ∧
  if na.size < nb.size then
    parentAt c'.nodes ra = rb ∧ sizeAt c'.nodes rb = nb.size + na.size ∧
    parentAt c'.nodes rb = parentAt c.nodes rb ∧ sizeAt c'.nodes ra = na.size ∧
    ∀ j, j ≠ ra → j ≠ rb → c'.nodes[j]? = c.nodes[j]?
  else
    parentAt c'.nodes rb = ra ∧ sizeAt c'.nodes ra = na.size + nb.size ∧
    parentAt c'.nodes ra = parentAt c.nodes ra ∧ sizeAt c'.nodes rb = nb.size ∧
    ∀ j, j ≠ ra → j ≠ rb → c'.nodes[j]? = c.nodes[j]?

/-! ## The public mutating interface as a transition system

The read-only queries (`nodes_connected`, `node_exists`, `node_index`,
`node_count`, `disjoint_set_count`, the two find functions) take `&self` and
cannot change the store, so a state is reachable through the public interface
iff it is reachable through the four mutating operations. -/

/-- One public mutating call. -/
inductive Op where
  | add : String → Op
  | add_bulk : List String → Op
  | connect : String → String → Op
  | connect_bulk : List BulkConnection → Op

/-- Effect of one public mutating call; `none` is a panic. -/
def Client.apply_op (c : Client) : Op → Option Client
  | .add u => some (c.add_node u)
  | .add_bulk us => some (c.add_nodes_bulk us)
  | .connect a b => c.connect_nodes a b
  | .connect_bulk conns => c.connect_nodes_bulk conns

/-- States reachable from `Client::new` by public operations. -/
inductive Reachable : Client → Prop where
  | new : Reachable Client.new
  | step : ∀ {c op c'}, Reachable c → c.apply_op op = some c' → Reachable c'

/-- A call is valid when every name it connects is registered and every bulk
index is in range after the one-shift.  Insertions are always valid. -/
def Op.Valid (c : Client) : Op → Prop
  | .add _ => True
  | .add_bulk _ => True
  | .connect a b => c.node_exists a = true ∧ c.node_exists b = true
  | .connect_bulk conns =>
      ∀ conn ∈ conns, conn.a + 1 < c.nodes.length ∧ conn.b + 1 < c.nodes.length

/-- States reachable from `Client::new` by valid public operations. -/
inductive ReachableV : Client → Prop where
  | new : ReachableV Client.new
  | step : ∀ {c op c'}, ReachableV c → Op.Valid c op → c.apply_op op = some c' → ReachableV c'

/-! ## Store invariants -/

/-- Invariant of every reachable state. -/
structure WF (c : Client) : Prop where
  len_pos : 0 < c.nodes.length
  idx_eq : ∀ (i : Nat) (n : Node), c.nodes[i]? = some n → n.index = i
  par_lt : ∀ i, i < c.nodes.length → parentAt c.nodes i < c.nodes.length
  par_pos : ∀ i, 1 ≤ i → i < c.nodes.length → 1 ≤ parentAt c.nodes i
  size_zero : sizeAt c.nodes 0 = 0
  root_size : ∀ i, 1 ≤ i → i < c.nodes.length → IsRoot c.nodes i → 1 ≤ sizeAt c.nodes i
  map_bounds : ∀ s i, c.node_map.lookup s = some i → 1 ≤ i ∧ i < c.nodes.length
  rooted : ∀ i, i < c.nodes.length → Rooted c.nodes i

/-- Additional invariant of every state reachable by valid operations: the
placeholder stays self-parented and the counter counts the real roots. -/
structure VWF (c : Client) extends WF c : Prop where
  par_zero : parentAt c.nodes 0 = 0
  count_eq : c.set_count = realRootCount c

/-! ## Basic lemmas about the semantic view -/

theorem parentAt_eq {nodes : List Node} {i : Nat} {n : Node} (h : nodes[i]? = some n) :
    parentAt nodes i = n.parent_index := by
  simp [parentAt, h]

theorem sizeAt_eq {nodes : List Node} {i : Nat} {n : Node} (h : nodes[i]? = some n) :
    sizeAt nodes i = n.size := by
  simp [sizeAt, h]

theorem exists_node_of_lt (nodes : List Node) (i : Nat) (h : i < nodes.length) :
    ∃ n, nodes[i]? = some n :=
  ⟨nodes[i], List.getElem?_eq_getElem h⟩

theorem iterParent_add (nodes : List Node) (m k i : Nat) :
    iterParent nodes (m + k) i = iterParent nodes m (iterParent nodes k i) := by
  induction k generalizing i with
  | zero => rfl
  | succ k ih => exact ih (parentAt nodes i)

theorem iterParent_succ_out (nodes : List Node) (k i : Nat) :
    iterParent nodes (k + 1) i = parentAt nodes (iterParent nodes k i) := by
  have h := iterParent_add nodes 1 k i
  rw [Nat.add_comm 1 k] at h
  exact h

theorem isRoot_iterParent {nodes : List Node} {i : Nat} (h : IsRoot nodes i) (k : Nat) :
    iterParent nodes k i = i := by
  induction k with
  | zero => rfl
  | succ k ih => rw [iterParent_succ_out, ih]; exact h

theorem iterParent_lt {nodes : List Node}
    (hpar : ∀ j, j < nodes.length → parentAt nodes j < nodes.length) :
    ∀ (k i : Nat), i < nodes.length → iterParent nodes k i < nodes.length := by
  intro k
  induction k with
  | zero => exact fun i hi => hi
  | succ k ih => exact fun i hi => ih (parentAt nodes i) (hpar i hi)

theorem iterParent_pos {nodes : List Node}
    (hpar : ∀ j, j < nodes.length → parentAt nodes j < nodes.length)
    (hpos : ∀ j, 1 ≤ j → j < nodes.length → 1 ≤ parentAt nodes j) :
    ∀ (k i : Nat), i < nodes.length → 1 ≤ i → 1 ≤ iterParent nodes k i := by
  intro k
  induction k with
  | zero => exact fun i _ h1 => h1
  | succ k ih => exact fun i hi h1 => ih (parentAt nodes i) (hpar i hi) (hpos i h1 hi)

theorem iterParent_congr {nodes nodes' : List Node} {L : Nat}
    (hL : ∀ j, j < L → parentAt nodes' j = parentAt nodes j)
    (hpar : ∀ j, j < L → parentAt nodes j < L) :
    ∀ (k i : Nat), i < L → iterParent nodes' k i = iterParent nodes k i := by
  intro k
  induction k with
  | zero => exact fun i _ => rfl
  | succ k ih =>
    intro i hi
    show iterParent nodes' k (parentAt nodes' i) = iterParent nodes k (parentAt nodes i)
    rw [hL i hi]
    exact ih (parentAt nodes i) (hpar i hi)

theorem rootsTo_rooted {nodes : List Node} {i r : Nat} (h : RootsTo nodes i r) :
    Rooted nodes i := by
  obtain ⟨k, hk, hr⟩ := h
  exact ⟨k, by rw [hk]; exact hr⟩

theorem rootsTo_unique_aux {nodes : List Node} {i r r' k k' : Nat}
    (hk : iterParent nodes k i = r) (hr : IsRoot nodes r)
    (hk' : iterParent nodes k' i = r') (hkk : k ≤ k') : r' = r := by
  have h1 : iterParent nodes (k' - k + k) i = iterParent nodes (k' - k) r := by
    rw [iterParent_add, hk]
  rw [Nat.sub_add_cancel hkk] at h1
  rw [← hk', h1, isRoot_iterParent hr]

theorem rootsTo_unique {nodes : List Node} {i r r' : Nat}
    (h1 : RootsTo nodes i r) (h2 : RootsTo nodes i r') : r = r' := by
  obtain ⟨k, hk, hr⟩ := h1
  obtain ⟨k', hk', hr'⟩ := h2
  rcases Nat.le_total k k' with h | h
  · exact (rootsTo_unique_aux hk hr hk' h).symm
  · exact rootsTo_unique_aux hk' hr' hk h

theorem rootsTo_parent {nodes : List Node} {i r : Nat}
    (h : RootsTo nodes (parentAt nodes i) r) : RootsTo nodes i r := by
  obtain ⟨k, hk, hr⟩ := h
  exact ⟨k + 1, hk, hr⟩

theorem rooted_parent {nodes : List Node} {i : Nat}
    (h : Rooted nodes (parentAt nodes i)) : Rooted nodes i := by
  obtain ⟨k, hk⟩ := h
  exact ⟨k + 1, hk⟩

/-- Bound on the hop count: a rooted chain inside a store of `n` records
reaches its representative in fewer than `n` hops, because the positions
visited before the first representative are pairwise distinct. -/
theorem rooted_bound {nodes : List Node} {i : Nat}
    (hpar : ∀ j, j < nodes.length → parentAt nodes j < nodes.length)
    (hi : i < nodes.length) (hr : Rooted nodes i) :
    ∃ k, k < nodes.length ∧ IsRoot nodes (iterParent nodes k i) := by
  classical
  set k0 := Nat.find hr with hk0
  refine ⟨k0, ?_, Nat.find_spec hr⟩
  have aux : ∀ a b : Nat, a < b → b ≤ k0 →
      iterParent nodes a i = iterParent nodes b i → False := by
    intro a b hab hbk heq
    have h1 : iterParent nodes (k0 - b + a) i = iterParent nodes (k0 - b + b) i := by
      rw [iterParent_add, iterParent_add, heq]
    rw [Nat.sub_add_cancel hbk] at h1
    have h2 : IsRoot nodes (iterParent nodes (k0 - b + a) i) := by
      rw [h1]; exact Nat.find_spec hr
    have h3 : k0 - b + a < k0 := by omega
    exact Nat.find_min hr h3 h2
  have hinj : Function.Injective
      (fun j : Fin (k0 + 1) => (⟨iterParent nodes j i, iterParent_lt hpar j i hi⟩ : Fin nodes.length)) := by
    intro a b hab
    have heq : iterParent nodes a i = iterParent nodes b i := congrArg Fin.val hab
    rcases Nat.lt_trichotomy a.val b.val with h | h | h
    · exact absurd heq (fun he => aux a b h (Nat.lt_succ_iff.mp b.isLt) he)
    · exact Fin.ext h
    · exact absurd heq.symm (fun he => aux b a h (Nat.lt_succ_iff.mp a.isLt) he)
  have hcard := Fintype.card_le_of_injective _ hinj
  simp only [Fintype.card_fin] at hcard
  omega

/-- The fuelled embedding of the `while` loop computes the representative
whenever the chain from the start node is rooted and the fuel dominates the
hop count. -/
theorem findRootLoop_some {nodes : List Node}
    (hidx : ∀ (i : Nat) (n : Node), nodes[i]? = some n → n.index = i)
    (hpar : ∀ j, j < nodes.length → parentAt nodes j < nodes.length) :
    ∀ (fuel k i : Nat) (n : Node), k < fuel → nodes[i]? = some n →
      IsRoot nodes (iterParent nodes k i) →
      findRootLoop nodes fuel n = some (iterParent nodes k i) := by
  intro fuel
  induction fuel with
  | zero => intro k i n hk; omega
  | succ f ih =>
    intro k i n hk hn hroot
    have hni : n.index = i := hidx i n hn
    have hpi : parentAt nodes i = n.parent_index := parentAt_eq hn
    by_cases hself : n.parent_index = n.index
    · have hri : IsRoot nodes i := by
        show parentAt nodes i = i
        rw [hpi, hself, hni]
      have : iterParent nodes k i = i := isRoot_iterParent hri k
      simp [findRootLoop, hself, this, hni]
    · have hilt : i < nodes.length := (List.getElem?_eq_some_iff.mp hn).1
      have hne : parentAt nodes i ≠ i := by
        rw [hpi]
        intro hcon
        exact hself (by rw [hcon, hni])
      match k with
      | 0 =>
        exact absurd hroot hne
      | k' + 1 =>
        have hplt : parentAt nodes i < nodes.length := hpar i hilt
        obtain ⟨n', hn'⟩ := exists_node_of_lt nodes (parentAt nodes i) hplt
        have hrec := ih k' (parentAt nodes i) n' (by omega)
          hn' hroot
        have hn'' : nodes[n.parent_index]? = some n' := by rw [← hpi]; exact hn'
        simp [findRootLoop, hself, hn'']
        exact hrec

/-! ## Preservation of rootedness under one re-parenting -/

/-- If the parent map changes only at `x`, whose new parent `y` is an old
representative other than `x`, every old rooted chain is still rooted: the
chain is intact up to its first visit of `x` (if any) and then continues
`x → y`. -/
theorem rooted_update {nodes nodes' : List Node} {x y : Nat}
    (hpar : ∀ j, j ≠ x → parentAt nodes' j = parentAt nodes j)
    (hx : parentAt nodes' x = y) (hyx : y ≠ x) (hy : IsRoot nodes y) :
    ∀ (k i : Nat), IsRoot nodes (iterParent nodes k i) → Rooted nodes' i := by
  have hy' : IsRoot nodes' y := by
    show parentAt nodes' y = y
    rw [hpar y hyx]; exact hy
  have hxr : Rooted nodes' x := by
    refine ⟨1, ?_⟩
    show IsRoot nodes' (parentAt nodes' x)
    rw [hx]; exact hy'
  intro k
  induction k with
  | zero =>
    intro i hi
    by_cases hix : i = x
    · rw [hix]; exact hxr
    · exact ⟨0, show IsRoot nodes' i by show parentAt nodes' i = i; rw [hpar i hix]; exact hi⟩
  | succ k ih =>
    intro i hi
    by_cases hix : i = x
    · rw [hix]; exact hxr
    · have := ih (parentAt nodes i) hi
      rw [← hpar i hix] at this
      exact rooted_parent this

/-- Value-tracking version when the re-parented position `x` is itself an old
representative (the only case the registered-name paths produce): the new
representative of `i` is `y` when the old one was `x`, and is unchanged
otherwise. -/
theorem rootsTo_update {nodes nodes' : List Node} {x y : Nat}
    (hpar : ∀ j, j ≠ x → parentAt nodes' j = parentAt nodes j)
    (hx : parentAt nodes' x = y) (hyx : y ≠ x) (hy : IsRoot nodes y)
    (hxroot : IsRoot nodes x) :
    ∀ (k i : Nat), IsRoot nodes (iterParent nodes k i) →
      RootsTo nodes' i (if iterParent nodes k i = x then y else iterParent nodes k i) := by
  have hy' : IsRoot nodes' y := by
    show parentAt nodes' y = y
    rw [hpar y hyx]; exact hy
  have hxr : RootsTo nodes' x y := ⟨1, by show parentAt nodes' x = y; exact hx, hy'⟩
  intro k
  induction k with
  | zero =>
    intro i hi
    by_cases hix : i = x
    · subst hix; simp only [iterParent, if_pos rfl]; exact hxr
    · simp only [iterParent, if_neg hix]
      exact ⟨0, rfl, show parentAt nodes' i = i by rw [hpar i hix]; exact hi⟩
  | succ k ih =>
    intro i hi
    by_cases hix : i = x
    · subst hix
      have hfix : iterParent nodes (k + 1) i = i := isRoot_iterParent hxroot (k + 1)
      rw [hfix, if_pos rfl]
      exact hxr
    · have hstep := ih (parentAt nodes i) hi
      have hiter : iterParent nodes (k + 1) i = iterParent nodes k (parentAt nodes i) := rfl
      rw [hiter]
      obtain ⟨m, hm, hroot⟩ := hstep
      refine ⟨m + 1, ?_, hroot⟩
      show iterParent nodes' m (parentAt nodes' i) = _
      rw [hpar i hix]
      exact hm

/-! ## Characterisation of the two find operations on well-formed stores -/

theorem find_root_index_bulk_eq {c : Client} (hwf : WF c) {i r : Nat}
    (hi : i < c.nodes.length) (hr : RootsTo c.nodes i r) :
    c.find_root_index_bulk i = some r := by
  obtain ⟨n, hn⟩ := exists_node_of_lt c.nodes i hi
  obtain ⟨k, hk, hkr⟩ := rooted_bound hwf.par_lt hi (rootsTo_rooted hr)
  have hloop := findRootLoop_some hwf.idx_eq hwf.par_lt (c.nodes.length + 1) k i n
    (by omega) hn hkr
  have hval : iterParent c.nodes k i = r :=
    rootsTo_unique ⟨k, rfl, hkr⟩ hr
  rw [hval] at hloop
  simp [Client.find_root_index_bulk, hn, hloop]

theorem find_root_index_bulk_spec {c : Client} (hwf : WF c) {i : Nat}
    (hi : i < c.nodes.length) :
    ∃ r, c.find_root_index_bulk i = some r ∧ RootsTo c.nodes i r ∧
      r < c.nodes.length ∧ (1 ≤ i → 1 ≤ r) := by
  obtain ⟨k, _, hkr⟩ := rooted_bound hwf.par_lt hi (hwf.rooted i hi)
  refine ⟨iterParent c.nodes k i, ?_, ⟨k, rfl, hkr⟩, iterParent_lt hwf.par_lt k i hi,
    fun h1 => iterParent_pos hwf.par_lt hwf.par_pos k i hi h1⟩
  exact find_root_index_bulk_eq hwf hi ⟨k, rfl, hkr⟩

theorem find_root_index_bulk_inv {c : Client} (hwf : WF c) {i r : Nat}
    (h : c.find_root_index_bulk i = some r) :
    i < c.nodes.length ∧ RootsTo c.nodes i r ∧ r < c.nodes.length ∧ (1 ≤ i → 1 ≤ r) := by
  have hi : i < c.nodes.length := by
    by_contra hcon
    have : c.nodes[i]? = none := List.getElem?_eq_none (by omega)
    simp [Client.find_root_index_bulk, this] at h
  obtain ⟨r', heq, hroots, hlt, hpos⟩ := find_root_index_bulk_spec hwf hi
  rw [h] at heq
  obtain rfl : r = r' := by injection heq
  exact ⟨hi, hroots, hlt, hpos⟩

theorem find_root_index_of_lookup_none {c : Client} {u : String}
    (h : c.node_map.lookup u = none) : c.find_root_index u = some 0 := by
  simp [Client.find_root_index, Client.node_index, h]

theorem find_root_index_eq_bulk {c : Client} {u : String} {i : Nat}
    (h : c.node_map.lookup u = some i) (hpos : 0 < i) :
    c.find_root_index u = c.find_root_index_bulk i := by
  have hni : c.node_index u = i := by simp [Client.node_index, h]
  simp only [Client.find_root_index, Client.find_root_index_bulk, hni, if_pos hpos]

theorem node_exists_iff_lookup {c : Client} {u : String} :
    c.node_exists u = true ↔ ∃ i, c.node_map.lookup u = some i := by
  simp [Client.node_exists, Option.isSome_iff_exists]

theorem find_root_index_spec {c : Client} (hwf : WF c) (u : String) :
    ∃ r, c.find_root_index u = some r ∧ r < c.nodes.length ∧
      (c.node_exists u = true →
        1 ≤ r ∧ RootsTo c.nodes (c.node_index u) r ∧ 1 ≤ c.node_index u) ∧
      (c.node_exists u = false → r = 0) := by
  cases hcase : c.node_map.lookup u with
  | none =>
    refine ⟨0, find_root_index_of_lookup_none hcase, hwf.len_pos, ?_, fun _ => rfl⟩
    intro hex
    obtain ⟨i, hi⟩ := node_exists_iff_lookup.mp hex
    rw [hcase] at hi; cases hi
  | some i =>
    obtain ⟨h1, h2⟩ := hwf.map_bounds u i hcase
    obtain ⟨r, heq, hroots, hlt, hpos⟩ := find_root_index_bulk_spec hwf h2
    have hni : c.node_index u = i := by simp [Client.node_index, hcase]
    refine ⟨r, ?_, hlt, fun _ => ⟨hpos h1, by rw [hni]; exact hroots, by omega⟩, ?_⟩
    · rw [find_root_index_eq_bulk hcase h1]; exact heq
    · intro hnex
      have : c.node_exists u = true := node_exists_iff_lookup.mpr ⟨i, hcase⟩
      rw [hnex] at this; cases this

/-! ## Pointwise effect of one merge -/

theorem reparent_length {c : Client} {x y : Nat} {nx ny : Node} {sc : Nat} :
    (reparent c x y nx ny sc).nodes.length = c.nodes.length := by
  simp [reparent]

theorem reparent_getElem_other {c : Client} {x y : Nat} {nx ny : Node} {sc : Nat}
    {j : Nat} (hjx : j ≠ x) (hjy : j ≠ y) :
    (reparent c x y nx ny sc).nodes[j]? = c.nodes[j]? := by
  simp [reparent, List.getElem?_set_ne (Ne.symm hjy), List.getElem?_set_ne (Ne.symm hjx)]

theorem reparent_getElem_x {c : Client} {x y : Nat} {nx ny : Node} {sc : Nat}
    (hx : c.nodes[x]? = some nx) (hxy : x ≠ y) :
    (reparent c x y nx ny sc).nodes[x]? = some { nx with parent_index := y } := by
  have hxlt : x < c.nodes.length := (List.getElem?_eq_some_iff.mp hx).1
  have h1 : (c.nodes.set x { nx with parent_index := y })[x]? =
      some { nx with parent_index := y } :=
    List.getElem?_set_self (by simpa using hxlt)
  have hyx : y ≠ x := Ne.symm hxy
  calc (reparent c x y nx ny sc).nodes[x]?
      = (c.nodes.set x { nx with parent_index := y })[x]? := by
        simp [reparent, List.getElem?_set_ne hyx]
    _ = some { nx with parent_index := y } := h1

theorem reparent_getElem_y {c : Client} {x y : Nat} {nx ny : Node} {sc : Nat}
    (hy : c.nodes[y]? = some ny) :
    (reparent c x y nx ny sc).nodes[y]? = some { ny with size := ny.size + nx.size } := by
  have hylt : y < c.nodes.length := (List.getElem?_eq_some_iff.mp hy).1
  show ((c.nodes.set x _).set y _)[y]? = _
  exact List.getElem?_set_self (by simpa using hylt)

theorem reparent_parentAt_other {c : Client} {x y : Nat} {nx ny : Node} {sc : Nat}
    (hy : c.nodes[y]? = some ny) {j : Nat} (hjx : j ≠ x) :
    parentAt (reparent c x y nx ny sc).nodes j = parentAt c.nodes j := by
  by_cases hjy : j = y
  · subst hjy
    rw [parentAt_eq (reparent_getElem_y hy), parentAt_eq hy]
  · unfold parentAt
    rw [reparent_getElem_other hjx hjy]

theorem reparent_parentAt_x {c : Client} {x y : Nat} {nx ny : Node} {sc : Nat}
    (hx : c.nodes[x]? = some nx) (hxy : x ≠ y) :
    parentAt (reparent c x y nx ny sc).nodes x = y := by
  rw [parentAt_eq (reparent_getElem_x hx hxy)]

theorem reparent_sizeAt_other {c : Client} {x y : Nat} {nx ny : Node} {sc : Nat}
    (hx : c.nodes[x]? = some nx) {j : Nat} (hjy : j ≠ y) :
    sizeAt (reparent c x y nx ny sc).nodes j = sizeAt c.nodes j := by
  by_cases hjx : j = x
  · rw [hjx]
    by_cases hxy : x = y
    · rw [hjx] at hjy; exact absurd hxy hjy
    · rw [sizeAt_eq (reparent_getElem_x hx hxy), sizeAt_eq hx]
  · unfold sizeAt
    rw [reparent_getElem_other hjx hjy]

theorem reparent_sizeAt_y {c : Client} {x y : Nat} {nx ny : Node} {sc : Nat}
    (hy : c.nodes[y]? = some ny) :
    sizeAt (reparent c x y nx ny sc).nodes y = ny.size + nx.size := by
  rw [sizeAt_eq (reparent_getElem_y hy)]

/-- The merge writes preserve the store invariant whenever the winner `y` is a
real representative and `x ≠ y`. -/
theorem reparent_wf {c : Client} (hwf : WF c) {x y : Nat} {nx ny : Node} {sc : Nat}
    (hx : c.nodes[x]? = some nx) (hy : c.nodes[y]? = some ny) (hxy : x ≠ y)
    (hyroot : IsRoot c.nodes y) (hy1 : 1 ≤ y) :
    WF (reparent c x y nx ny sc) := by
  have hxlt : x < c.nodes.length := (List.getElem?_eq_some_iff.mp hx).1
  have hylt : y < c.nodes.length := (List.getElem?_eq_some_iff.mp hy).1
  have hpar : ∀ j, j ≠ x → parentAt (reparent c x y nx ny sc).nodes j = parentAt c.nodes j :=
    fun j hj => reparent_parentAt_other hy hj
  have hparx : parentAt (reparent c x y nx ny sc).nodes x = y := reparent_parentAt_x hx hxy
  refine ⟨?_, ?_, ?_, ?_, ?_, ?_, ?_, ?_⟩
  · rw [reparent_length]; exact hwf.len_pos
  · intro j n hj
    by_cases hjx : j = x
    · rw [hjx] at hj ⊢
      rw [reparent_getElem_x hx hxy] at hj
      injection hj with hj
      rw [← hj]
      exact hwf.idx_eq x nx hx
    · by_cases hjy : j = y
      · rw [hjy] at hj ⊢
        rw [reparent_getElem_y hy] at hj
        injection hj with hj
        rw [← hj]
        exact hwf.idx_eq y ny hy
      · rw [reparent_getElem_other hjx hjy] at hj
        exact hwf.idx_eq j n hj
  · intro j hj
    rw [reparent_length] at hj
    rw [reparent_length]
    by_cases hjx : j = x
    · rw [hjx, hparx]; exact hylt
    · rw [hpar j hjx]; exact hwf.par_lt j hj
  · intro j h1 hj
    rw [reparent_length] at hj
    by_cases hjx : j = x
    · rw [hjx, hparx]; exact hy1
    · rw [hpar j hjx]; exact hwf.par_pos j h1 hj
  · rw [reparent_sizeAt_other hx (by omega)]
    exact hwf.size_zero
  · intro j h1 hj hroot
    rw [reparent_length] at hj
    by_cases hjx : j = x
    · rw [hjx, IsRoot, hparx] at hroot
      exact absurd hroot.symm hxy
    · by_cases hjy : j = y
      · rw [hjy, reparent_sizeAt_y hy]
        have := hwf.root_size y hy1 hylt hyroot
        rw [sizeAt_eq hy] at this
        omega
      · rw [reparent_sizeAt_other hx hjy]
        refine hwf.root_size j h1 hj ?_
        rw [IsRoot, ← hpar j hjx]
        exact hroot
  · intro s i hs
    have := hwf.map_bounds s i hs
    rw [reparent_length]
    exact this
  · intro j hj
    rw [reparent_length] at hj
    obtain ⟨k, hk⟩ := hwf.rooted j hj
    exact rooted_update hpar hparx (Ne.symm hxy) hyroot k j hk

/-! ## Merge: success conditions and invariant preservation -/

theorem mergeRoots_cases {c : Client} {ra rb : Nat} {na nb : Node} {sc : Nat}
    (hna : c.nodes[ra]? = some na) (hnb : c.nodes[rb]? = some nb)
    (hsc : c.set_count = sc + 1) :
    mergeRoots c ra rb = if na.size < nb.size then some (reparent c ra rb na nb sc)
      else some (reparent c rb ra nb na sc) := by
  unfold mergeRoots
  rw [hna, hnb, hsc]

theorem mergeRoots_zero {c : Client} {ra rb : Nat} (hsc : c.set_count = 0) :
    mergeRoots c ra rb = none := by
  unfold mergeRoots
  rw [hsc]
  rcases c.nodes[ra]? with _ | na <;> rcases c.nodes[rb]? with _ | nb <;> rfl

theorem mergeRoots_some_set_count {c c' : Client} {ra rb : Nat}
    (h : mergeRoots c ra rb = some c') : 1 ≤ c.set_count := by
  by_contra hcon
  rw [mergeRoots_zero (by omega)] at h
  cases h

theorem mergeRoots_some_getElem {c c' : Client} {ra rb : Nat}
    (h : mergeRoots c ra rb = some c') :
    ∃ na nb, c.nodes[ra]? = some na ∧ c.nodes[rb]? = some nb := by
  unfold mergeRoots at h
  rcases hna : c.nodes[ra]? with _ | na <;> rw [hna] at h
  · rcases c.nodes[rb]? with _ | nb <;> cases c.set_count <;> cases h
  · rcases hnb : c.nodes[rb]? with _ | nb <;> rw [hnb] at h
    · cases c.set_count <;> cases h
    · exact ⟨na, nb, rfl, rfl⟩

/-- If the per-branch winner is a real representative, one merge preserves the
basic store invariant; the possible shapes of `ra`, `rb` are those produced by
the two find operations (a real representative, or the placeholder 0 for an
unknown name). -/
theorem mergeRoots_wf {c c' : Client} {ra rb : Nat} (hwf : WF c)
    (ha : ra = 0 ∨ (1 ≤ ra ∧ IsRoot c.nodes ra))
    (hb : rb = 0 ∨ (1 ≤ rb ∧ IsRoot c.nodes rb))
    (hne : ra ≠ rb)
    (h : mergeRoots c ra rb = some c') :
    WF c' ∧ c'.nodes.length = c.nodes.length ∧ c'.node_map = c.node_map := by
  obtain ⟨na, nb, hna, hnb⟩ := mergeRoots_some_getElem h
  have hsc1 := mergeRoots_some_set_count h
  obtain ⟨sc, hsc⟩ : ∃ sc, c.set_count = sc + 1 := ⟨c.set_count - 1, by omega⟩
  rw [mergeRoots_cases hna hnb hsc] at h
  by_cases hlt : na.size < nb.size
  · rw [if_pos hlt] at h
    injection h with h
    rw [← h]
    have hbr : 1 ≤ rb ∧ IsRoot c.nodes rb := by
      rcases hb with hb0 | hb1
      · exfalso
        have : sizeAt c.nodes rb = 0 := by rw [hb0]; exact hwf.size_zero
        rw [sizeAt_eq hnb] at this
        omega
      · exact hb1
    exact ⟨reparent_wf hwf hna hnb hne hbr.2 hbr.1, reparent_length, rfl⟩
  · rw [if_neg hlt] at h
    injection h with h
    rw [← h]
    have hblt : rb < c.nodes.length := (List.getElem?_eq_some_iff.mp hnb).1
    have har : 1 ≤ ra ∧ IsRoot c.nodes ra := by
      rcases ha with ha0 | ha1
      · exfalso
        have hza : sizeAt c.nodes ra = 0 := by rw [ha0]; exact hwf.size_zero
        rw [sizeAt_eq hna] at hza
        have hrb : 1 ≤ rb ∧ IsRoot c.nodes rb := by
          rcases hb with hb0 | hb1
          · exact absurd (ha0.trans hb0.symm) hne
          · exact hb1
        have := hwf.root_size rb hrb.1 hblt hrb.2
        rw [sizeAt_eq hnb] at this
        omega
      · exact ha1
    exact ⟨reparent_wf hwf hnb hna (Ne.symm hne) har.2 har.1, reparent_length, rfl⟩

/-- Removing the loser from the real-root set drops the count by exactly one. -/
theorem reparent_realRootCount {c : Client} {x y : Nat} {nx ny : Node} {sc : Nat}
    (hx : c.nodes[x]? = some nx) (hy : c.nodes[y]? = some ny) (hxy : x ≠ y)
    (hx1 : 1 ≤ x) (hxroot : IsRoot c.nodes x) :
    realRootCount (reparent c x y nx ny sc) = realRootCount c - 1 ∧
      1 ≤ realRootCount c := by
  have hxlt : x < c.nodes.length := (List.getElem?_eq_some_iff.mp hx).1
  have hmem : x ∈ (Finset.range c.nodes.length).filter fun i => 1 ≤ i ∧ IsRoot c.nodes i := by
    rw [Finset.mem_filter, Finset.mem_range]
    exact ⟨hxlt, hx1, hxroot⟩
  have hset : ((Finset.range (reparent c x y nx ny sc).nodes.length).filter
      fun i => 1 ≤ i ∧ IsRoot (reparent c x y nx ny sc).nodes i) =
      ((Finset.range c.nodes.length).filter fun i => 1 ≤ i ∧ IsRoot c.nodes i).erase x := by
    ext j
    rw [Finset.mem_erase, Finset.mem_filter, Finset.mem_filter, Finset.mem_range,
      Finset.mem_range, reparent_length]
    constructor
    · rintro ⟨hjlt, hj1, hjroot⟩
      have hjx : j ≠ x := by
        intro hcon
        rw [hcon, IsRoot, reparent_parentAt_x hx hxy] at hjroot
        exact hxy hjroot.symm
      rw [IsRoot, reparent_parentAt_other hy hjx] at hjroot
      exact ⟨hjx, hjlt, hj1, hjroot⟩
    · rintro ⟨hjx, hjlt, hj1, hjroot⟩
      refine ⟨hjlt, hj1, ?_⟩
      rw [IsRoot, reparent_parentAt_other hy hjx]
      exact hjroot
  constructor
  · rw [realRootCount, hset, Finset.card_erase_of_mem hmem]; rfl
  · exact Finset.card_pos.mpr ⟨x, hmem⟩

theorem reparent_vwf {c : Client} (hv : VWF c) {x y : Nat} {nx ny : Node} {sc : Nat}
    (hx : c.nodes[x]? = some nx) (hy : c.nodes[y]? = some ny) (hxy : x ≠ y)
    (hx1 : 1 ≤ x) (hxroot : IsRoot c.nodes x)
    (hy1 : 1 ≤ y) (hyroot : IsRoot c.nodes y)
    (hsc : c.set_count = sc + 1) :
    VWF (reparent c x y nx ny sc) ∧ (reparent c x y nx ny sc).set_count + 1 = c.set_count := by
  obtain ⟨hcount, hpos⟩ := @reparent_realRootCount c x y nx ny sc hx hy hxy hx1 hxroot
  have hwf' : WF (reparent c x y nx ny sc) := reparent_wf hv.toWF hx hy hxy hyroot hy1
  have hscval : (reparent c x y nx ny sc).set_count = sc := rfl
  refine ⟨⟨hwf', ?_, ?_⟩, by omega⟩
  · rw [reparent_parentAt_other hy (by omega)]
    exact hv.par_zero
  · rw [hscval, hcount, ← hv.count_eq, hsc]; omega

/-- A merge of two distinct real representatives keeps the valid-state
invariant and decrements the counter by exactly one. -/
theorem mergeRoots_vwf {c c' : Client} {ra rb : Nat} (hv : VWF c)
    (ha1 : 1 ≤ ra) (haroot : IsRoot c.nodes ra)
    (hb1 : 1 ≤ rb) (hbroot : IsRoot c.nodes rb)
    (hne : ra ≠ rb)
    (h : mergeRoots c ra rb = some c') :
    VWF c' ∧ c'.set_count + 1 = c.set_count ∧
      c'.nodes.length = c.nodes.length ∧ c'.node_map = c.node_map := by
  obtain ⟨na, nb, hna, hnb⟩ := mergeRoots_some_getElem h
  have hsc1 := mergeRoots_some_set_count h
  obtain ⟨sc, hsc⟩ : ∃ sc, c.set_count = sc + 1 := ⟨c.set_count - 1, by omega⟩
  rw [mergeRoots_cases hna hnb hsc] at h
  by_cases hlt : na.size < nb.size
  · rw [if_pos hlt] at h
    injection h with h
    rw [← h]
    obtain ⟨hv', hdec⟩ := reparent_vwf hv hna hnb hne ha1 haroot hb1 hbroot hsc
    exact ⟨hv', hdec, reparent_length, rfl⟩
  · rw [if_neg hlt] at h
    injection h with h
    rw [← h]
    obtain ⟨hv', hdec⟩ := reparent_vwf hv hnb hna (Ne.symm hne) hb1 hbroot ha1 haroot hsc
    exact ⟨hv', hdec, reparent_length, rfl⟩

/-! ## Insertion: pointwise effect and invariant preservation -/

theorem push_node_length {c : Client} {u : String} :
    (c.push_node u).nodes.length = c.nodes.length + 1 := by
  simp [Client.push_node]

theorem push_node_getElem_lt {c : Client} {u : String} {j : Nat} (hj : j < c.nodes.length) :
    (c.push_node u).nodes[j]? = c.nodes[j]? :=
  List.getElem?_append_left hj

theorem push_node_getElem_len {c : Client} {u : String} :
    (c.push_node u).nodes[c.nodes.length]? =
      some { uuid := u, parent_index := c.nodes.length, index := c.nodes.length, size := 1 } :=
  List.getElem?_concat_length _ _

theorem push_node_parentAt_lt {c : Client} {u : String} {j : Nat} (hj : j < c.nodes.length) :
    parentAt (c.push_node u).nodes j = parentAt c.nodes j := by
  unfold parentAt
  rw [push_node_getElem_lt hj]

theorem push_node_parentAt_len {c : Client} {u : String} :
    parentAt (c.push_node u).nodes c.nodes.length = c.nodes.length := by
  rw [parentAt_eq push_node_getElem_len]

theorem push_node_wf {c : Client} (hwf : WF c) (u : String) : WF (c.push_node u) := by
  have hlen := @push_node_length c u
  refine ⟨?_, ?_, ?_, ?_, ?_, ?_, ?_, ?_⟩
  · rw [hlen]; omega
  · intro j n hj
    rcases Nat.lt_trichotomy j c.nodes.length with h | h | h
    · rw [push_node_getElem_lt h] at hj
      exact hwf.idx_eq j n hj
    · rw [h] at hj ⊢
      rw [push_node_getElem_len] at hj
      injection hj with hj
      rw [← hj]
    · rw [List.getElem?_eq_none (by rw [hlen]; omega)] at hj
      cases hj
  · intro j hj
    rw [hlen] at hj
    rcases Nat.lt_or_ge j c.nodes.length with h | h
    · rw [push_node_parentAt_lt h]
      have := hwf.par_lt j h
      rw [hlen]; omega
    · have hjl : j = c.nodes.length := by omega
      rw [hjl, push_node_parentAt_len, hlen]; omega
  · intro j h1 hj
    rw [hlen] at hj
    rcases Nat.lt_or_ge j c.nodes.length with h | h
    · rw [push_node_parentAt_lt h]
      exact hwf.par_pos j h1 h
    · have hjl : j = c.nodes.length := by omega
      rw [hjl, push_node_parentAt_len]
      exact hwf.len_pos
  · unfold sizeAt
    rw [push_node_getElem_lt hwf.len_pos]
    exact hwf.size_zero
  · intro j h1 hj hroot
    rw [hlen] at hj
    rcases Nat.lt_or_ge j c.nodes.length with h | h
    · unfold sizeAt
      rw [push_node_getElem_lt h]
      rw [IsRoot, push_node_parentAt_lt h] at hroot
      have := hwf.root_size j h1 h hroot
      rw [sizeAt] at this
      exact this
    · have hjl : j = c.nodes.length := by omega
      rw [hjl]
      unfold sizeAt
      rw [push_node_getElem_len]
  · intro s i hs
    rw [hlen]
    by_cases hsu : s = u
    · have heq : List.lookup s ((u, c.nodes.length) :: c.node_map) = some c.nodes.length := by
        rw [hsu]; simp [List.lookup_cons]
      have hsome : some c.nodes.length = some i := heq.symm.trans hs
      injection hsome with hsome
      have hp := hwf.len_pos
      omega
    · have heq : List.lookup s ((u, c.nodes.length) :: c.node_map) =
          List.lookup s c.node_map := by
        rw [List.lookup_cons, show (s == u) = false from beq_eq_false_iff_ne.mpr hsu]
      have hs' : List.lookup s c.node_map = some i := by rw [← heq]; exact hs
      have := hwf.map_bounds s i hs'
      omega
  · intro j hj
    rw [hlen] at hj
    rcases Nat.lt_or_ge j c.nodes.length with h | h
    · obtain ⟨k, hk⟩ := hwf.rooted j h
      refine ⟨k, ?_⟩
      have hcong : iterParent (c.push_node u).nodes k j = iterParent c.nodes k j :=
        iterParent_congr (fun i hi => push_node_parentAt_lt hi) hwf.par_lt k j h
      rw [IsRoot, hcong, push_node_parentAt_lt (iterParent_lt hwf.par_lt k j h)]
      exact hk
    · have hjl : j = c.nodes.length := by omega
      rw [hjl]
      exact ⟨0, push_node_parentAt_len⟩

theorem push_node_realRootCount {c : Client} (hwf : WF c) (u : String) :
    realRootCount (c.push_node u) = realRootCount c + 1 := by
  have hlen := @push_node_length c u
  have hset : ((Finset.range (c.push_node u).nodes.length).filter
      fun i => 1 ≤ i ∧ IsRoot (c.push_node u).nodes i) =
      insert c.nodes.length
        ((Finset.range c.nodes.length).filter fun i => 1 ≤ i ∧ IsRoot c.nodes i) := by
    ext j
    rw [Finset.mem_insert, Finset.mem_filter, Finset.mem_filter, Finset.mem_range,
      Finset.mem_range, hlen]
    constructor
    · rintro ⟨hjlt, hj1, hjroot⟩
      rcases Nat.lt_or_ge j c.nodes.length with h | h
      · rw [IsRoot, push_node_parentAt_lt h] at hjroot
        exact Or.inr ⟨h, hj1, hjroot⟩
      · exact Or.inl (by omega)
    · rintro (h | ⟨hjlt, hj1, hjroot⟩)
      · rw [h]
        exact ⟨by omega, hwf.len_pos, push_node_parentAt_len⟩
      · refine ⟨by omega, hj1, ?_⟩
        rw [IsRoot, push_node_parentAt_lt hjlt]
        exact hjroot
  have hnotmem : c.nodes.length ∉
      (Finset.range c.nodes.length).filter fun i => 1 ≤ i ∧ IsRoot c.nodes i := by
    rw [Finset.mem_filter, Finset.mem_range]
    omega
  rw [realRootCount, hset, Finset.card_insert_of_not_mem hnotmem]
  rfl

theorem push_node_vwf {c : Client} (hv : VWF c) (u : String) : VWF (c.push_node u) := by
  refine ⟨push_node_wf hv.toWF u, ?_, ?_⟩
  · rw [push_node_parentAt_lt hv.len_pos]
    exact hv.par_zero
  · rw [push_node_realRootCount hv.toWF u]
    show c.set_count + 1 = _
    rw [hv.count_eq]

/-! ## Invariants hold initially and are preserved by every public operation -/

theorem wf_new : WF Client.new := by
  refine ⟨Nat.one_pos, ?_, ?_, ?_, rfl, ?_, ?_, ?_⟩
  · intro i n h
    cases i with
    | zero =>
      have : some { uuid := "root", parent_index := 0, index := 0, size := 0 } = some n := h
      injection this with this
      rw [← this]
    | succ i =>
      have : (Client.new.nodes)[i + 1]? = none := rfl
      rw [this] at h
      cases h
  · intro j hj
    have : j = 0 := by
      have : Client.new.nodes.length = 1 := rfl
      omega
    rw [this]
    decide
  · intro j h1 hj
    have : Client.new.nodes.length = 1 := rfl
    omega
  · intro j h1 hj
    have : Client.new.nodes.length = 1 := rfl
    omega
  · intro s i hs
    have : Client.new.node_map.lookup s = none := rfl
    rw [this] at hs
    cases hs
  · intro j hj
    have : j = 0 := by
      have : Client.new.nodes.length = 1 := rfl
      omega
    rw [this]
    exact ⟨0, by decide⟩

theorem vwf_new : VWF Client.new := by
  refine ⟨wf_new, by decide, by decide⟩

theorem add_node_wf {c : Client} (hwf : WF c) (u : String) : WF (c.add_node u) := by
  unfold Client.add_node
  by_cases h : c.node_exists u = true
  · rw [if_pos h]; exact hwf
  · rw [if_neg h]; exact push_node_wf hwf u

theorem add_node_vwf {c : Client} (hv : VWF c) (u : String) : VWF (c.add_node u) := by
  unfold Client.add_node
  by_cases h : c.node_exists u = true
  · rw [if_pos h]; exact hv
  · rw [if_neg h]; exact push_node_vwf hv u

theorem add_nodes_bulk_wf : ∀ (names : List String) (c : Client), WF c →
    WF (c.add_nodes_bulk names) := by
  intro names
  induction names with
  | nil => exact fun c hwf => hwf
  | cons n rest ih => exact fun c hwf => ih (c.push_node n) (push_node_wf hwf n)

theorem add_nodes_bulk_vwf : ∀ (names : List String) (c : Client), VWF c →
    VWF (c.add_nodes_bulk names) := by
  intro names
  induction names with
  | nil => exact fun c hv => hv
  | cons n rest ih => exact fun c hv => ih (c.push_node n) (push_node_vwf hv n)

theorem add_nodes_bulk_length : ∀ (names : List String) (c : Client),
    (c.add_nodes_bulk names).nodes.length = c.nodes.length + names.length := by
  intro names
  induction names with
  | nil => exact fun c => rfl
  | cons n rest ih =>
    intro c
    show ((c.push_node n).add_nodes_bulk rest).nodes.length = _
    rw [ih, push_node_length]
    simp [Nat.add_assoc, Nat.add_comm 1 rest.length]

theorem add_nodes_bulk_set_count : ∀ (names : List String) (c : Client),
    (c.add_nodes_bulk names).set_count = c.set_count + names.length := by
  intro names
  induction names with
  | nil => exact fun c => rfl
  | cons n rest ih =>
    intro c
    show ((c.push_node n).add_nodes_bulk rest).set_count = _
    rw [ih]
    show c.set_count + 1 + rest.length = _
    simp [Nat.add_assoc, Nat.add_comm 1 rest.length]

theorem add_nodes_bulk_getElem_lt : ∀ (names : List String) (c : Client) (j : Nat),
    j < c.nodes.length → (c.add_nodes_bulk names).nodes[j]? = c.nodes[j]? := by
  intro names
  induction names with
  | nil => exact fun c j _ => rfl
  | cons n rest ih =>
    intro c j hj
    show ((c.push_node n).add_nodes_bulk rest).nodes[j]? = _
    rw [ih (c.push_node n) j (by rw [push_node_length]; omega)]
    exact push_node_getElem_lt hj

theorem add_nodes_bulk_lookup_not_mem : ∀ (names : List String) (c : Client) (u : String),
    u ∉ names → (c.add_nodes_bulk names).node_map.lookup u = c.node_map.lookup u := by
  intro names
  induction names with
  | nil => exact fun c u _ => rfl
  | cons n rest ih =>
    intro c u hu
    have hun : u ≠ n := fun h => hu (by rw [h]; exact List.mem_cons_self n rest)
    have hurest : u ∉ rest := fun h => hu (List.mem_cons_of_mem n h)
    show ((c.push_node n).add_nodes_bulk rest).node_map.lookup u = _
    rw [ih (c.push_node n) u hurest]
    show List.lookup u ((n, c.nodes.length) :: c.node_map) = _
    rw [List.lookup_cons, show (u == n) = false from beq_eq_false_iff_ne.mpr hun]

theorem find_root_index_shape {c : Client} (hwf : WF c) {u : String} {r : Nat}
    (h : c.find_root_index u = some r) :
    r < c.nodes.length ∧ (r = 0 ∨ (1 ≤ r ∧ IsRoot c.nodes r)) := by
  obtain ⟨r', heq, hlt, htrue, hfalse⟩ := find_root_index_spec hwf u
  have hrr : r' = r := by
    have := heq.symm.trans h
    injection this
  rw [hrr] at hlt htrue hfalse
  refine ⟨hlt, ?_⟩
  cases hex : c.node_exists u with
  | false => exact Or.inl (hfalse hex)
  | true =>
    obtain ⟨h1, hroots, _⟩ := htrue hex
    obtain ⟨k, _, hroot⟩ := hroots
    exact Or.inr ⟨h1, hroot⟩

theorem connect_nodes_wf {c c' : Client} (hwf : WF c) {a b : String}
    (h : c.connect_nodes a b = some c') :
    WF c' ∧ c'.nodes.length = c.nodes.length ∧ c'.node_map = c.node_map := by
  unfold Client.connect_nodes at h
  rcases hfa : c.find_root_index a with _ | ra <;> rw [hfa] at h <;>
    rcases hfb : c.find_root_index b with _ | rb <;> rw [hfb] at h
  · cases h
  · cases h
  · cases h
  · have h2 : (if ra = rb then some c else mergeRoots c ra rb) = some c' := h
    by_cases hrr : ra = rb
    · rw [if_pos hrr] at h2
      injection h2 with h2
      rw [← h2]
      exact ⟨hwf, rfl, rfl⟩
    · rw [if_neg hrr] at h2
      exact mergeRoots_wf hwf (find_root_index_shape hwf hfa).2
        (find_root_index_shape hwf hfb).2 hrr h2

theorem connect_bulk_step_wf {c c' : Client} (hwf : WF c) {conn : BulkConnection}
    (h : c.connect_bulk_step conn = some c') :
    WF c' ∧ c'.nodes.length = c.nodes.length ∧ c'.node_map = c.node_map := by
  unfold Client.connect_bulk_step at h
  rcases hfa : c.find_root_index_bulk (conn.a + 1) with _ | ra <;> rw [hfa] at h <;>
    rcases hfb : c.find_root_index_bulk (conn.b + 1) with _ | rb <;> rw [hfb] at h
  · cases h
  · cases h
  · cases h
  · have h2 : (if ra = rb then some c else mergeRoots c ra rb) = some c' := h
    by_cases hrr : ra = rb
    · rw [if_pos hrr] at h2
      injection h2 with h2
      rw [← h2]
      exact ⟨hwf, rfl, rfl⟩
    · rw [if_neg hrr] at h2
      obtain ⟨_, hroots_a, _, hpos_a⟩ := find_root_index_bulk_inv hwf hfa
      obtain ⟨_, hroots_b, _, hpos_b⟩ := find_root_index_bulk_inv hwf hfb
      obtain ⟨_, _, hroot_a⟩ := hroots_a
      obtain ⟨_, _, hroot_b⟩ := hroots_b
      exact mergeRoots_wf hwf (Or.inr ⟨hpos_a (by omega), hroot_a⟩)
        (Or.inr ⟨hpos_b (by omega), hroot_b⟩) hrr h2

theorem connect_nodes_bulk_wf : ∀ (conns : List BulkConnection) (c c' : Client), WF c →
    c.connect_nodes_bulk conns = some c' →
    WF c' ∧ c'.nodes.length = c.nodes.length ∧ c'.node_map = c.node_map := by
  intro conns
  induction conns with
  | nil =>
    intro c c' hwf h
    injection h with h
    rw [← h]
    exact ⟨hwf, rfl, rfl⟩
  | cons conn rest ih =>
    intro c c' hwf h
    unfold Client.connect_nodes_bulk at h
    rcases hstep : c.connect_bulk_step conn with _ | c1 <;> rw [hstep] at h
    · cases h
    · obtain ⟨hwf1, hlen1, hmap1⟩ := connect_bulk_step_wf hwf hstep
      obtain ⟨hwf', hlen', hmap'⟩ := ih c1 c' hwf1 h
      exact ⟨hwf', hlen'.trans hlen1, hmap'.trans hmap1⟩

theorem apply_op_wf {c c' : Client} (hwf : WF c) {op : Op}
    (h : c.apply_op op = some c') : WF c' := by
  cases op with
  | add u =>
    injection h with h
    rw [← h]
    exact add_node_wf hwf u
  | add_bulk us =>
    injection h with h
    rw [← h]
    exact add_nodes_bulk_wf us c hwf
  | connect a b => exact (connect_nodes_wf hwf h).1
  | connect_bulk conns => exact (connect_nodes_bulk_wf conns c c' hwf h).1

/-- Every state reachable through the public interface satisfies the basic
store invariant. -/
theorem reachable_wf {c : Client} (h : Reachable c) : WF c := by
  induction h with
  | new => exact wf_new
  | step _ hop ih => exact apply_op_wf ih hop

theorem connect_nodes_vwf {c c' : Client} (hv : VWF c) {a b : String}
    (hva : c.node_exists a = true) (hvb : c.node_exists b = true)
    (h : c.connect_nodes a b = some c') :
    VWF c' ∧ c'.nodes.length = c.nodes.length := by
  obtain ⟨ra, hfa, _, htrue_a, _⟩ := find_root_index_spec hv.toWF a
  obtain ⟨rb, hfb, _, htrue_b, _⟩ := find_root_index_spec hv.toWF b
  obtain ⟨ha1, hroots_a, _⟩ := htrue_a hva
  obtain ⟨hb1, hroots_b, _⟩ := htrue_b hvb
  obtain ⟨_, _, hroot_a⟩ := hroots_a
  obtain ⟨_, _, hroot_b⟩ := hroots_b
  unfold Client.connect_nodes at h
  rw [hfa, hfb] at h
  have h2 : (if ra = rb then some c else mergeRoots c ra rb) = some c' := h
  by_cases hrr : ra = rb
  · rw [if_pos hrr] at h2
    injection h2 with h2
    rw [← h2]
    exact ⟨hv, rfl⟩
  · rw [if_neg hrr] at h2
    obtain ⟨hv', _, hlen, _⟩ := mergeRoots_vwf hv ha1 hroot_a hb1 hroot_b hrr h2
    exact ⟨hv', hlen⟩

theorem connect_bulk_step_vwf {c c' : Client} (hv : VWF c) {conn : BulkConnection}
    (ha : conn.a + 1 < c.nodes.length) (hb : conn.b + 1 < c.nodes.length)
    (h : c.connect_bulk_step conn = some c') :
    VWF c' ∧ c'.nodes.length = c.nodes.length := by
  obtain ⟨ra, hfa, hroots_a, _, hpos_a⟩ := find_root_index_bulk_spec hv.toWF ha
  obtain ⟨rb, hfb, hroots_b, _, hpos_b⟩ := find_root_index_bulk_spec hv.toWF hb
  obtain ⟨_, _, hroot_a⟩ := hroots_a
  obtain ⟨_, _, hroot_b⟩ := hroots_b
  unfold Client.connect_bulk_step at h
  rw [hfa, hfb] at h
  have h2 : (if ra = rb then some c else mergeRoots c ra rb) = some c' := h
  by_cases hrr : ra = rb
  · rw [if_pos hrr] at h2
    injection h2 with h2
    rw [← h2]
    exact ⟨hv, rfl⟩
  · rw [if_neg hrr] at h2
    obtain ⟨hv', _, hlen, _⟩ := mergeRoots_vwf hv (hpos_a (by omega)) hroot_a
      (hpos_b (by omega)) hroot_b hrr h2
    exact ⟨hv', hlen⟩

theorem connect_nodes_bulk_vwf : ∀ (conns : List BulkConnection) (c c' : Client), VWF c →
    (∀ conn ∈ conns, conn.a + 1 < c.nodes.length ∧ conn.b + 1 < c.nodes.length) →
    c.connect_nodes_bulk conns = some c' → VWF c' := by
  intro conns
  induction conns with
  | nil =>
    intro c c' hv _ h
    injection h with h
    rw [← h]
    exact hv
  | cons conn rest ih =>
    intro c c' hv hbounds h
    unfold Client.connect_nodes_bulk at h
    rcases hstep : c.connect_bulk_step conn with _ | c1 <;> rw [hstep] at h
    · cases h
    · obtain ⟨hconn_a, hconn_b⟩ := hbounds conn (List.mem_cons_self conn rest)
      obtain ⟨hv1, hlen1⟩ := connect_bulk_step_vwf hv hconn_a hconn_b hstep
      refine ih c1 c' hv1 ?_ h
      intro conn' hconn'
      rw [hlen1]
      exact hbounds conn' (List.mem_cons_of_mem conn hconn')

theorem apply_op_vwf {c c' : Client} (hv : VWF c) {op : Op}
    (hvalid : Op.Valid c op) (h : c.apply_op op = some c') : VWF c' := by
  cases op with
  | add u =>
    injection h with h
    rw [← h]
    exact add_node_vwf hv u
  | add_bulk us =>
    injection h with h
    rw [← h]
    exact add_nodes_bulk_vwf us c hv
  | connect a b => exact (connect_nodes_vwf hv hvalid.1 hvalid.2 h).1
  | connect_bulk conns => exact connect_nodes_bulk_vwf conns c c' hv hvalid h

/-- Every state reachable through valid calls satisfies the counting invariant. -/
theorem reachableV_vwf {c : Client} (h : ReachableV c) : VWF c := by
  induction h with
  | new => exact vwf_new
  | step _ hvalid hop ih => exact apply_op_vwf ih hvalid hop

/-! ## Remaining helper lemmas for the claims -/

theorem node_exists_false_iff {c : Client} {u : String} :
    c.node_exists u = false ↔ c.node_map.lookup u = none := by
  cases h : List.lookup u c.node_map <;> simp [Client.node_exists, h]

theorem representatives_eq_roots {c : Client} (hwf : WF c) :
    representatives c = (Finset.range c.nodes.length).filter fun i => 1 ≤ i ∧ IsRoot c.nodes i := by
  ext r
  rw [representatives, Finset.mem_image]
  constructor
  · rintro ⟨i, hi, hr⟩
    rw [Finset.mem_filter, Finset.mem_range] at hi
    obtain ⟨hilt, hi1⟩ := hi
    obtain ⟨r', heq, hroots, hrlt, hrpos⟩ := find_root_index_bulk_spec hwf hilt
    rw [heq] at hr
    have hrr : r' = r := hr
    obtain ⟨_, _, hroot⟩ := hroots
    rw [Finset.mem_filter, Finset.mem_range]
    rw [hrr] at hrlt hrpos hroot
    exact ⟨hrlt, hrpos hi1, hroot⟩
  · intro hr
    rw [Finset.mem_filter, Finset.mem_range] at hr
    obtain ⟨hrlt, hr1, hroot⟩ := hr
    refine ⟨r, ?_, ?_⟩
    · rw [Finset.mem_filter, Finset.mem_range]; exact ⟨hrlt, hr1⟩
    · rw [find_root_index_bulk_eq hwf hrlt ⟨0, rfl, hroot⟩]; rfl

/-- One merge with distinct root records and a positive counter succeeds and
realises `MergeSpec`. -/
theorem mergeRoots_spec {c : Client} {ra rb : Nat} {na nb : Node}
    (hna : c.nodes[ra]? = some na) (hnb : c.nodes[rb]? = some nb)
    (hne : ra ≠ rb) (hsc : 1 ≤ c.set_count) :
    ∃ c', mergeRoots c ra rb = some c' ∧ MergeSpec c ra rb na nb c' := by
  obtain ⟨sc, hsceq⟩ : ∃ sc, c.set_count = sc + 1 := ⟨c.set_count - 1, by omega⟩
  rw [mergeRoots_cases hna hnb hsceq]
  by_cases hlt : na.size < nb.size
  · rw [if_pos hlt]
    refine ⟨reparent c ra rb na nb sc, rfl, ?_, reparent_length, rfl, ?_⟩
    · show sc + 1 = c.set_count
      omega
    · rw [if_pos hlt]
      refine ⟨reparent_parentAt_x hna hne, reparent_sizeAt_y hnb,
        reparent_parentAt_other hnb (Ne.symm hne), ?_, ?_⟩
      · rw [reparent_sizeAt_other hna hne, sizeAt_eq hna]
      · intro j hja hjb
        exact reparent_getElem_other hja hjb
  · rw [if_neg hlt]
    refine ⟨reparent c rb ra nb na sc, rfl, ?_, reparent_length, rfl, ?_⟩
    · show sc + 1 = c.set_count
      omega
    · rw [if_neg hlt]
      refine ⟨reparent_parentAt_x hnb (Ne.symm hne), reparent_sizeAt_y hna,
        reparent_parentAt_other hna hne, ?_, ?_⟩
      · rw [reparent_sizeAt_other hnb (Ne.symm hne), sizeAt_eq hnb]
      · intro j hja hjb
        exact reparent_getElem_other hjb hja

/-- After one successful merge of two distinct real roots, all chains that led
to either root now lead to the single winning root. -/
theorem mergeRoots_rootsTo {c c' : Client} {ra rb : Nat}
    (ha1 : 1 ≤ ra) (haroot : IsRoot c.nodes ra) (hb1 : 1 ≤ rb) (hbroot : IsRoot c.nodes rb)
    (hne : ra ≠ rb) (h : mergeRoots c ra rb = some c') :
    ∃ w, 1 ≤ w ∧
      ∀ i r, RootsTo c.nodes i r → r = ra ∨ r = rb → RootsTo c'.nodes i w := by
  obtain ⟨na, nb, hna, hnb⟩ := mergeRoots_some_getElem h
  have hsc1 := mergeRoots_some_set_count h
  obtain ⟨sc, hsc⟩ : ∃ sc, c.set_count = sc + 1 := ⟨c.set_count - 1, by omega⟩
  rw [mergeRoots_cases hna hnb hsc] at h
  by_cases hlt : na.size < nb.size
  · rw [if_pos hlt] at h
    injection h with h
    rw [← h]
    refine ⟨rb, hb1, ?_⟩
    intro i r hroots hcase
    obtain ⟨k, hk, hroot⟩ := hroots
    have hupd : RootsTo (reparent c ra rb na nb sc).nodes i
        (if iterParent c.nodes k i = ra then rb else iterParent c.nodes k i) :=
      rootsTo_update (fun j hj => reparent_parentAt_other hnb hj)
        (reparent_parentAt_x hna hne) (Ne.symm hne) hbroot haroot k i (by rw [hk]; exact hroot)
    rw [hk] at hupd
    rcases hcase with hcr | hcr
    · rw [hcr, if_pos rfl] at hupd
      exact hupd
    · rw [hcr, if_neg (Ne.symm hne)] at hupd
      exact hupd
  · rw [if_neg hlt] at h
    injection h with h
    rw [← h]
    refine ⟨ra, ha1, ?_⟩
    intro i r hroots hcase
    obtain ⟨k, hk, hroot⟩ := hroots
    have hupd : RootsTo (reparent c rb ra nb na sc).nodes i
        (if iterParent c.nodes k i = rb then ra else iterParent c.nodes k i) :=
      rootsTo_update (fun j hj => reparent_parentAt_other hna hj)
        (reparent_parentAt_x hnb (Ne.symm hne)) hne haroot hbroot k i (by rw [hk]; exact hroot)
    rw [hk] at hupd
    rcases hcase with hcr | hcr
    · rw [hcr, if_neg hne] at hupd
      exact hupd
    · rw [hcr, if_pos rfl] at hupd
      exact hupd

theorem connect_nodes_bulk_cons (c : Client) (conn : BulkConnection)
    (rest : List BulkConnection) :
    c.connect_nodes_bulk (conn :: rest) =
      (c.connect_bulk_step conn).bind fun c1 => c1.connect_nodes_bulk rest := by
  show (match c.connect_bulk_step conn with
    | some c1 => c1.connect_nodes_bulk rest
    | none => none) = _
  rcases c.connect_bulk_step conn with _ | c1 <;> rfl

theorem nodes_connected_true_iff {c : Client} {a b : String} :
    c.nodes_connected a b = some true ↔
      ∃ r, c.find_root_index a = some r ∧ c.find_root_index b = some r ∧ 1 ≤ r := by
  constructor
  · intro htrue
    unfold Client.nodes_connected at htrue
    rcases hfa : c.find_root_index a with _ | ra <;> rw [hfa] at htrue
    · cases htrue
    · rcases hfb : c.find_root_index b with _ | rb <;> rw [hfb] at htrue
      · cases htrue
      · have htrue2 : (decide (ra > 0) && (ra == rb)) = true := by
          injection htrue
        rw [Bool.and_eq_true, decide_eq_true_eq, beq_iff_eq] at htrue2
        obtain ⟨hra, hrab⟩ := htrue2
        exact ⟨ra, rfl, by rw [hrab], by omega⟩
  · rintro ⟨r, hfa, hfb, hr1⟩
    unfold Client.nodes_connected
    rw [hfa, hfb]
    show some (decide (r > 0) && (r == r)) = some true
    rw [show (decide (r > 0) && (r == r)) = true from by
      rw [Bool.and_eq_true, decide_eq_true_eq, beq_iff_eq]
      exact ⟨by omega, rfl⟩]

/-! ## The claims -/

/-- C4: starting from a new client, inserting 10 distinct names via the bulk
path and applying the 11 zero-based bulk pairs
(4,3),(3,8),(6,5),(9,4),(2,1),(8,9),(5,0),(7,2),(6,1),(1,0),(6,7) in that
order yields `count() == 10` and a disjoint-set counter of 2. -/
theorem claim4_end_to_end :
    ((Client.new.add_nodes_bulk
        ["A", "B", "C", "D", "E", "F", "G", "H", "I", "J"]).connect_nodes_bulk
      [⟨4, 3⟩, ⟨3, 8⟩, ⟨6, 5⟩, ⟨9, 4⟩, ⟨2, 1⟩, ⟨8, 9⟩, ⟨5, 0⟩, ⟨7, 2⟩, ⟨6, 1⟩,
        ⟨1, 0⟩, ⟨6, 7⟩]).map
      (fun c => (c.node_count, c.disjoint_set_count)) = some (10, 2) := by
  decide

/-- C1, counterexample: the claimed invariant fails on a reachable state.
After `new; add_node "A"; connect_nodes "A" "X"` (with `"X"` unregistered) the
counter is 0 although one real entity forms one component, and the placeholder
at position 0 has been re-parented under the real entity at position 1. -/
theorem claim1_counterexample :
    ((Client.new.add_node "A").connect_nodes "A" "X").map
      (fun c => (c.disjoint_set_count, realRootCount c, parentAt c.nodes 0)) =
    some (0, 1, 1) := by
  decide

/-- C2, counterexample: a reachable state in which the two names resolve to
the distinct real representatives 1 and 2, yet `connect_nodes` hits the
unguarded `set_count -= 1` at counter 0 (panic) instead of decrementing the
counter by one. -/
theorem claim2_counterexample :
    ((((Client.new.add_node "A").add_node "B").connect_nodes "A" "X").bind
      (fun c => c.connect_nodes "B" "Y")).map
      (fun c => (c.find_root_index "A", c.find_root_index "B", c.set_count,
        c.connect_nodes "A" "B")) =
    some (some 1, some 2, 0, none) := by
  decide

/-- C5, counterexample: `connect("A", "X")` with `"X"` unregistered succeeds
once, but repeating the very same call panics on counter underflow instead of
leaving the state unchanged — the double call is not idempotent. -/
theorem claim5_counterexample :
    (((Client.new.add_node "A").connect_nodes "A" "X").bind
      (fun c => c.connect_nodes "A" "X")) = none ∧
    ((Client.new.add_node "A").connect_nodes "A" "X") ≠ none := by
  decide

/-- C6, counterexample: on a new client two unregistered names both resolve to
the placeholder position 0 — the same resolution result — yet
`nodes_connected` returns `false`, so the claimed iff fails as stated. -/
theorem claim6_counterexample :
    Client.new.find_root_index "X" = some 0 ∧
    Client.new.find_root_index "Y" = some 0 ∧
    Client.new.nodes_connected "X" "Y" = some false := by
  decide

/-- C3: in every reachable state every record's parent chain reaches a
self-parented record after finitely many hops (no cycles), so the root
resolution loop terminates — the fuelled embeddings of `find_root_index_bulk`
(for every in-range position) and `find_root_index` (for every name) return a
result rather than running out of fuel. -/
theorem claim3_termination {c : Client} (h : Reachable c) :
    (∀ i, i < c.nodes.length →
      (∃ k, IsRoot c.nodes (iterParent c.nodes k i)) ∧
        (c.find_root_index_bulk i).isSome = true) ∧
    (∀ u : String, (c.find_root_index u).isSome = true) := by
  have hwf := reachable_wf h
  constructor
  · intro i hi
    refine ⟨hwf.rooted i hi, ?_⟩
    obtain ⟨r, heq, _⟩ := find_root_index_bulk_spec hwf hi
    rw [heq]
    rfl
  · intro u
    obtain ⟨r, heq, _⟩ := find_root_index_spec hwf u
    rw [heq]
    rfl

/-- C3, witness: instantiated on the fresh client at the placeholder position. -/
theorem claim3_witness :
    (∃ k, IsRoot Client.new.nodes (iterParent Client.new.nodes k 0)) ∧
      (Client.new.find_root_index_bulk 0).isSome = true :=
  (claim3_termination Reachable.new).1 0 (by decide)

/-- C9: in every reachable state, looking up an unregistered name yields the
placeholder position 0 from both `node_index` and `find_root_index`, while a
registered name yields a position ≥ 1 and a representative ≥ 1 — never the
placeholder. -/
theorem claim9_lookup {c : Client} (h : Reachable c) (u : String) :
    (c.node_exists u = false →
      c.node_index u = 0 ∧ c.find_root_index u = some 0) ∧
    (c.node_exists u = true →
      1 ≤ c.node_index u ∧ ∃ r, c.find_root_index u = some r ∧ 1 ≤ r) := by
  have hwf := reachable_wf h
  constructor
  · intro hnex
    have hlk : c.node_map.lookup u = none := node_exists_false_iff.mp hnex
    constructor
    · rw [Client.node_index, hlk]
    · exact find_root_index_of_lookup_none hlk
  · intro hex
    obtain ⟨r, heq, _, htrue, _⟩ := find_root_index_spec hwf u
    obtain ⟨hr1, _, hidx1⟩ := htrue hex
    exact ⟨hidx1, r, heq, hr1⟩

/-- C9, witness: instantiated after `add_node "A"` for the unregistered name
`"B"` and the registered name `"A"`. -/
theorem claim9_witness :
    ((Client.new.add_node "A").node_index "B" = 0 ∧
      (Client.new.add_node "A").find_root_index "B" = some 0) ∧
    (1 ≤ (Client.new.add_node "A").node_index "A" ∧
      ∃ r, (Client.new.add_node "A").find_root_index "A" = some r ∧ 1 ≤ r) := by
  have hreach : Reachable (Client.new.add_node "A") :=
    @Reachable.step Client.new (Op.add "A") (Client.new.add_node "A") Reachable.new rfl
  exact ⟨(claim9_lookup hreach "B").1 (by decide), (claim9_lookup hreach "A").2 (by decide)⟩

/-- C7: the bulk loader shifts each zero-based index of each pair by one and
applies the union-by-position operation strictly in sequence order — the head
pair is merged first (through root resolution at the shifted positions and the
shared merge body), the rest of the batch then runs on the updated store, and
batches compose sequentially. -/
theorem claim7_bulk_order :
    (∀ (c : Client) (conn : BulkConnection) (rest : List BulkConnection),
      c.connect_nodes_bulk (conn :: rest) =
        (match c.find_root_index_bulk (conn.a + 1), c.find_root_index_bulk (conn.b + 1) with
          | some ra, some rb => if ra = rb then some c else mergeRoots c ra rb
          | _, _ => none).bind
          fun c1 => c1.connect_nodes_bulk rest) ∧
    (∀ c : Client, c.connect_nodes_bulk [] = some c) ∧
    (∀ (c : Client) (l1 l2 : List BulkConnection),
      c.connect_nodes_bulk (l1 ++ l2) =
        (c.connect_nodes_bulk l1).bind fun c1 => c1.connect_nodes_bulk l2) := by
  refine ⟨?_, fun c => rfl, ?_⟩
  · intro c conn rest
    exact connect_nodes_bulk_cons c conn rest
  · intro c l1
    induction l1 generalizing c with
    | nil => intro l2; rfl
    | cons conn rest ih =>
      intro l2
      rw [List.cons_append, connect_nodes_bulk_cons, connect_nodes_bulk_cons]
      rcases c.connect_bulk_step conn with _ | c1
      · rfl
      · exact ih c1 l2

/-- C8: `add_nodes_bulk` appends a fresh self-parented record of size 1 and
bumps the counter for every name unconditionally; a duplicated name gets a
second record and the name index afterwards maps the name to its last
occurrence, shadowing the earlier record. -/
theorem claim8_batch_insert (c : Client) (names : List String) :
    (c.add_nodes_bulk names).nodes.length = c.nodes.length + names.length ∧
    (c.add_nodes_bulk names).set_count = c.set_count + names.length ∧
    (∀ (j : Nat) (x : String), names[j]? = some x →
      (c.add_nodes_bulk names).nodes[c.nodes.length + j]? =
        some { uuid := x, parent_index := c.nodes.length + j,
               index := c.nodes.length + j, size := 1 }) ∧
    (∀ (j : Nat) (x : String), names[j]? = some x →
      (∀ j', j' < names.length → j < j' → names[j']? ≠ some x) →
      (c.add_nodes_bulk names).node_index x = c.nodes.length + j) := by
  refine ⟨add_nodes_bulk_length names c, add_nodes_bulk_set_count names c, ?_, ?_⟩
  · intro j x
    induction names generalizing c j with
    | nil => intro hx; cases hx
    | cons n rest ih =>
      intro hx
      cases j with
      | zero =>
        have hxn : x = n := by
          rw [List.getElem?_cons_zero] at hx
          injection hx with hx
          exact hx.symm
        show ((c.push_node n).add_nodes_bulk rest).nodes[c.nodes.length + 0]? = _
        rw [Nat.add_zero,
          add_nodes_bulk_getElem_lt rest (c.push_node n) c.nodes.length
            (by rw [push_node_length]; omega),
          push_node_getElem_len, hxn]
      | succ j =>
        have hx' : rest[j]? = some x := by
          rw [List.getElem?_cons_succ] at hx
          exact hx
        have := ih (c.push_node n) j hx'
        rw [push_node_length] at this
        show ((c.push_node n).add_nodes_bulk rest).nodes[c.nodes.length + (j + 1)]? = _
        have harith : c.nodes.length + (j + 1) = c.nodes.length + 1 + j := by omega
        rw [harith]
        exact this
  · intro j x
    induction names generalizing c j with
    | nil => intro hx; cases hx
    | cons n rest ih =>
      intro hx hlast
      cases j with
      | zero =>
        have hxn : x = n := by
          rw [List.getElem?_cons_zero] at hx
          injection hx with hx
          exact hx.symm
        have hnotmem : x ∉ rest := by
          intro hmem
          obtain ⟨j'', hj''⟩ := List.mem_iff_getElem?.mp hmem
          have hlt : j'' < rest.length := (List.getElem?_eq_some_iff.mp hj'').1
          refine hlast (j'' + 1) ?_ (by omega) ?_
          · simp only [List.length_cons]; omega
          · rw [List.getElem?_cons_succ]
            exact hj''
        show ((c.push_node n).add_nodes_bulk rest).node_index x = c.nodes.length + 0
        rw [Nat.add_zero, Client.node_index,
          add_nodes_bulk_lookup_not_mem rest (c.push_node n) x hnotmem]
        show (match List.lookup x ((n, c.nodes.length) :: c.node_map) with
          | some i => i
          | none => 0) = c.nodes.length
        rw [List.lookup_cons, show (x == n) = true from beq_iff_eq.mpr hxn]
      | succ j =>
        have hx' : rest[j]? = some x := by
          rw [List.getElem?_cons_succ] at hx
          exact hx
        have hlast' : ∀ j', j' < rest.length → j < j' → rest[j']? ≠ some x := by
          intro j' hj'len hjj' hcon
          refine hlast (j' + 1) ?_ (by omega) ?_
          · simp only [List.length_cons]; omega
          · rw [List.getElem?_cons_succ]
            exact hcon
        have := ih (c.push_node n) j hx' hlast'
        rw [push_node_length] at this
        show ((c.push_node n).add_nodes_bulk rest).node_index x = c.nodes.length + (j + 1)
        have harith : c.nodes.length + (j + 1) = c.nodes.length + 1 + j := by omega
        rw [harith]
        exact this

/-- C8, witness: the duplicate batch `["A", "B", "A"]` creates three records
and the name index maps `"A"` to the later record at position 3, shadowing the
one at position 1. -/
theorem claim8_witness :
    (Client.new.add_nodes_bulk ["A", "B", "A"]).nodes.length =
      Client.new.nodes.length + 3 ∧
    (Client.new.add_nodes_bulk ["A", "B", "A"]).node_index "A" =
      Client.new.nodes.length + 2 :=
  ⟨(claim8_batch_insert Client.new ["A", "B", "A"]).1,
   (claim8_batch_insert Client.new ["A", "B", "A"]).2.2.2 2 "A" (by decide) (by decide)⟩

/-- C1 (amended): over call sequences in which every connect uses registered
names and every bulk index is in range, the disjoint-set counter equals the
number of real roots, that is the number of distinct representatives the real
entities resolve to (the number of connected components), and the placeholder
at position 0 is never merged with a real entity in either direction.  The
original unrestricted claim is refuted by `claim1_counterexample`. -/
theorem claim1_amended {c : Client} (h : ReachableV c) :
    c.disjoint_set_count = realRootCount c ∧
    c.disjoint_set_count = (representatives c).card ∧
    parentAt c.nodes 0 = 0 ∧
    (∀ i, 1 ≤ i → i < c.nodes.length → 1 ≤ parentAt c.nodes i) := by
  have hv := reachableV_vwf h
  refine ⟨hv.count_eq, ?_, hv.par_zero, hv.par_pos⟩
  rw [representatives_eq_roots hv.toWF]
  exact hv.count_eq

/-- C1, witness for the amended theorem: the valid state after adding `"A"`
and `"B"`. -/
theorem claim1_witness :
    ((Client.new.add_node "A").add_node "B").disjoint_set_count =
      realRootCount ((Client.new.add_node "A").add_node "B") ∧
    ((Client.new.add_node "A").add_node "B").disjoint_set_count =
      (representatives ((Client.new.add_node "A").add_node "B")).card ∧
    parentAt ((Client.new.add_node "A").add_node "B").nodes 0 = 0 := by
  have h : ReachableV ((Client.new.add_node "A").add_node "B") :=
    @ReachableV.step (Client.new.add_node "A") (Op.add "B")
      ((Client.new.add_node "A").add_node "B")
      (@ReachableV.step Client.new (Op.add "A") (Client.new.add_node "A")
        ReachableV.new trivial rfl)
      trivial rfl
  exact ⟨(claim1_amended h).1, (claim1_amended h).2.1, (claim1_amended h).2.2.1⟩

/-- C2 (amended): whenever a union — by name through `connect_nodes`, or one
step of `connect_nodes_bulk` at shifted positions — resolves its two arguments
to distinct roots `ra` and `rb` and the counter is positive, the call succeeds
and realises `MergeSpec`: the strictly smaller root is re-parented under the
other (ties re-parent the second under the first), the winner's size absorbs
the loser's, every other record is untouched, and the counter decreases by
exactly one.  The original claim, with no positivity proviso, is refuted by
`claim2_counterexample`, where the unguarded decrement underflows instead. -/
theorem claim2_amended {c : Client} {ra rb : Nat} {na nb : Node}
    (hna : c.nodes[ra]? = some na) (hnb : c.nodes[rb]? = some nb)
    (hne : ra ≠ rb) (hsc : 1 ≤ c.set_count) :
    (∀ a b : String, c.find_root_index a = some ra → c.find_root_index b = some rb →
      ∃ c', c.connect_nodes a b = some c' ∧ MergeSpec c ra rb na nb c') ∧
    (∀ conn : BulkConnection,
      c.find_root_index_bulk (conn.a + 1) = some ra →
      c.find_root_index_bulk (conn.b + 1) = some rb →
      ∃ c', c.connect_bulk_step conn = some c' ∧ MergeSpec c ra rb na nb c') := by
  obtain ⟨c', hmerge, hspec⟩ := mergeRoots_spec hna hnb hne hsc
  constructor
  · intro a b hfa hfb
    refine ⟨c', ?_, hspec⟩
    unfold Client.connect_nodes
    rw [hfa, hfb]
    show (if ra = rb then some c else mergeRoots c ra rb) = some c'
    rw [if_neg hne]
    exact hmerge
  · intro conn hfa hfb
    refine ⟨c', ?_, hspec⟩
    unfold Client.connect_bulk_step
    rw [hfa, hfb]
    show (if ra = rb then some c else mergeRoots c ra rb) = some c'
    rw [if_neg hne]
    exact hmerge

/-- C2, witness for the amended theorem: merging the two singleton roots 1 and
2 after adding `"A"` and `"B"` (the tie case, so 2 is re-parented under 1). -/
theorem claim2_witness :
    1 ≤ ((Client.new.add_node "A").add_node "B").set_count ∧
    ∃ c', ((Client.new.add_node "A").add_node "B").connect_nodes "A" "B" = some c' ∧
      MergeSpec ((Client.new.add_node "A").add_node "B") 1 2
        { uuid := "A", parent_index := 1, index := 1, size := 1 }
        { uuid := "B", parent_index := 2, index := 2, size := 1 } c' :=
  ⟨by decide,
    (claim2_amended (by decide) (by decide) (by decide) (by decide)).1 "A" "B"
      (by decide) (by decide)⟩

/-- C5 (amended): on every reachable state, self-union is a no-op; and the
double call `connect(a, b); connect(a, b)` is idempotent provided both names
are registered — after the first merge both names resolve to the same (winner)
representative, so the second call changes nothing.  Without the registration
proviso the original claim is refuted by `claim5_counterexample`. -/
theorem claim5_amended {c : Client} (h : Reachable c) :
    (∀ x : String, c.connect_nodes x x = some c) ∧
    (∀ (a b : String) (c' : Client), c.node_exists a = true → c.node_exists b = true →
      c.connect_nodes a b = some c' → c'.connect_nodes a b = some c') := by
  have hwf := reachable_wf h
  constructor
  · intro x
    obtain ⟨r, heq, _⟩ := find_root_index_spec hwf x
    unfold Client.connect_nodes
    rw [heq]
    show (if r = r then some c else mergeRoots c r r) = some c
    rw [if_pos rfl]
  · intro a b c' hva hvb hconn
    obtain ⟨ra, hfa, _, htrue_a, _⟩ := find_root_index_spec hwf a
    obtain ⟨rb, hfb, _, htrue_b, _⟩ := find_root_index_spec hwf b
    obtain ⟨ha1, hroots_a, hidxa1⟩ := htrue_a hva
    obtain ⟨hb1, hroots_b, hidxb1⟩ := htrue_b hvb
    have hroot_a : IsRoot c.nodes ra := by
      obtain ⟨_, _, hr⟩ := hroots_a
      exact hr
    have hroot_b : IsRoot c.nodes rb := by
      obtain ⟨_, _, hr⟩ := hroots_b
      exact hr
    unfold Client.connect_nodes at hconn
    rw [hfa, hfb] at hconn
    have hconn2 : (if ra = rb then some c else mergeRoots c ra rb) = some c' := hconn
    by_cases hrr : ra = rb
    · rw [if_pos hrr] at hconn2
      injection hconn2 with hconn2
      rw [← hconn2]
      unfold Client.connect_nodes
      rw [hfa, hfb]
      show (if ra = rb then some c else mergeRoots c ra rb) = some c
      rw [if_pos hrr]
    · rw [if_neg hrr] at hconn2
      obtain ⟨hwf', hlen', hmap'⟩ := mergeRoots_wf hwf (Or.inr ⟨ha1, hroot_a⟩)
        (Or.inr ⟨hb1, hroot_b⟩) hrr hconn2
      obtain ⟨w, hw1, hmapsTo⟩ := mergeRoots_rootsTo ha1 hroot_a hb1 hroot_b hrr hconn2
      obtain ⟨ia, hia⟩ := node_exists_iff_lookup.mp hva
      obtain ⟨ib, hib⟩ := node_exists_iff_lookup.mp hvb
      have hnia : c.node_index a = ia := by simp [Client.node_index, hia]
      have hnib : c.node_index b = ib := by simp [Client.node_index, hib]
      have hrootsTo_a' : RootsTo c'.nodes ia w := by
        refine hmapsTo ia ra ?_ (Or.inl rfl)
        rw [← hnia]
        exact hroots_a
      have hrootsTo_b' : RootsTo c'.nodes ib w := by
        refine hmapsTo ib rb ?_ (Or.inr rfl)
        rw [← hnib]
        exact hroots_b
      have hia_bounds := hwf.map_bounds a ia hia
      have hib_bounds := hwf.map_bounds b ib hib
      have hia' : c'.node_map.lookup a = some ia := by rw [hmap']; exact hia
      have hib' : c'.node_map.lookup b = some ib := by rw [hmap']; exact hib
      have hfa' : c'.find_root_index a = some w := by
        rw [find_root_index_eq_bulk hia' (by omega)]
        exact find_root_index_bulk_eq hwf' (by rw [hlen']; omega) hrootsTo_a'
      have hfb' : c'.find_root_index b = some w := by
        rw [find_root_index_eq_bulk hib' (by omega)]
        exact find_root_index_bulk_eq hwf' (by rw [hlen']; omega) hrootsTo_b'
      unfold Client.connect_nodes
      rw [hfa', hfb']
      show (if w = w then some c' else mergeRoots c' w w) = some c'
      rw [if_pos rfl]

/-- C5, witness for the amended theorem: self-union on the state after
`add_node "A"`. -/
theorem claim5_witness :
    (Client.new.add_node "A").connect_nodes "A" "A" = some (Client.new.add_node "A") :=
  (claim5_amended (@Reachable.step Client.new (Op.add "A") (Client.new.add_node "A")
    Reachable.new rfl)).1 "A"

/-- C6 (amended): `nodes_connected a b` returns true iff both names resolve to
the same representative at a real position (≥ 1) — equivalently, the same
representative excluding the placeholder that unknown names resolve to — and
the resulting relation is symmetric and transitive.  The unrestricted iff is
refuted by `claim6_counterexample`, where two unknown names share resolution
result 0 yet the query answers false. -/
theorem claim6_amended (c : Client) (a b : String) :
    (c.nodes_connected a b = some true ↔
      ∃ r, c.find_root_index a = some r ∧ c.find_root_index b = some r ∧ 1 ≤ r) ∧
    c.nodes_connected a b = c.nodes_connected b a ∧
    (∀ d : String, c.nodes_connected a b = some true →
      c.nodes_connected b d = some true → c.nodes_connected a d = some true) := by
  refine ⟨nodes_connected_true_iff, ?_, ?_⟩
  · unfold Client.nodes_connected
    rcases hfa : c.find_root_index a with _ | ra <;>
      rcases hfb : c.find_root_index b with _ | rb
    · rfl
    · rfl
    · rfl
    · show some (decide (ra > 0) && (ra == rb)) = some (decide (rb > 0) && (rb == ra))
      by_cases hrr : ra = rb
      · rw [hrr]
      · rw [show (ra == rb) = false from beq_eq_false_iff_ne.mpr hrr,
          show (rb == ra) = false from beq_eq_false_iff_ne.mpr (Ne.symm hrr),
          Bool.and_false, Bool.and_false]
  · intro d h1 h2
    obtain ⟨r, hfa, hfb, hr1⟩ := nodes_connected_true_iff.mp h1
    obtain ⟨r', hfb', hfd, hr1'⟩ := nodes_connected_true_iff.mp h2
    have : some r = some r' := hfb.symm.trans hfb'
    injection this with this
    rw [← this] at hfd
    exact nodes_connected_true_iff.mpr ⟨r, hfa, hfd, hr1⟩

/-- C6, witness for the amended theorem: a registered name is connected to
itself through its own representative. -/
theorem claim6_witness :
    (Client.new.add_node "A").nodes_connected "A" "A" = some true :=
  ((claim6_amended (Client.new.add_node "A") "A" "A").1).mpr
    ⟨1, by decide, by decide, by decide⟩

/-- C10: when `connect_nodes` is called with exactly one unregistered name on
a reachable state, the unknown side resolves to the placeholder 0, the
registered side to a real representative, the roots differ, the placeholder
record is re-parented under the real root (when the placeholder's side is the
first argument this is because its size 0 is strictly below the real root's
size), and the counter is decremented; consequently the concrete public
sequence `add "A"; connect "A" "X"; connect "A" "Y"` drives the counter to 0
and then hits the unguarded `set_count -= 1`, which underflows (modelled as
`none`). -/
theorem claim10_placeholder_merge :
    (∀ (c : Client) (a b : String), Reachable c →
      c.node_exists a = true → c.node_exists b = false → 1 ≤ c.set_count →
      ∃ c' ra, c.find_root_index a = some ra ∧ 1 ≤ ra ∧
        c.find_root_index b = some 0 ∧
        c.connect_nodes a b = some c' ∧
        parentAt c'.nodes 0 = ra ∧ c'.set_count + 1 = c.set_count) ∧
    (∀ (c : Client) (a b : String), Reachable c →
      c.node_exists a = false → c.node_exists b = true → 1 ≤ c.set_count →
      ∃ c' rb, c.find_root_index b = some rb ∧ 1 ≤ rb ∧
        c.find_root_index a = some 0 ∧
        sizeAt c.nodes 0 < sizeAt c.nodes rb ∧
        c.connect_nodes a b = some c' ∧
        parentAt c'.nodes 0 = rb ∧ c'.set_count + 1 = c.set_count) ∧
    ((Client.new.add_node "A").connect_nodes "A" "X").map Client.disjoint_set_count =
      some 0 ∧
    ((Client.new.add_node "A").connect_nodes "A" "X").bind
      (fun c1 => c1.connect_nodes "A" "Y") = none := by
  refine ⟨?_, ?_, by decide, by decide⟩
  · intro c a b hreach hva hvb hsc
    have hwf := reachable_wf hreach
    obtain ⟨ra, hfa, hralt, htrue_a, _⟩ := find_root_index_spec hwf a
    obtain ⟨ha1, _, _⟩ := htrue_a hva
    have hfb : c.find_root_index b = some 0 :=
      find_root_index_of_lookup_none (node_exists_false_iff.mp hvb)
    obtain ⟨na, hna⟩ := exists_node_of_lt c.nodes ra hralt
    obtain ⟨n0, hn0⟩ := exists_node_of_lt c.nodes 0 hwf.len_pos
    have hne : ra ≠ 0 := by omega
    obtain ⟨c', hmerge, hspec⟩ := mergeRoots_spec hna hn0 hne hsc
    refine ⟨c', ra, hfa, ha1, hfb, ?_, ?_, hspec.1⟩
    · unfold Client.connect_nodes
      rw [hfa, hfb]
      show (if ra = 0 then some c else mergeRoots c ra 0) = some c'
      rw [if_neg hne]
      exact hmerge
    · obtain ⟨_, _, _, hbranch⟩ := hspec
      have hn0size : n0.size = 0 := by
        have := hwf.size_zero
        rw [sizeAt_eq hn0] at this
        exact this
      rw [if_neg (by omega)] at hbranch
      exact hbranch.1
  · intro c a b hreach hva hvb hsc
    have hwf := reachable_wf hreach
    obtain ⟨rb, hfb, hrblt, htrue_b, _⟩ := find_root_index_spec hwf b
    obtain ⟨hb1, hroots_b, _⟩ := htrue_b hvb
    have hroot_b : IsRoot c.nodes rb := by
      obtain ⟨_, _, hr⟩ := hroots_b
      exact hr
    have hfa : c.find_root_index a = some 0 :=
      find_root_index_of_lookup_none (node_exists_false_iff.mp hva)
    obtain ⟨nb, hnb⟩ := exists_node_of_lt c.nodes rb hrblt
    obtain ⟨n0, hn0⟩ := exists_node_of_lt c.nodes 0 hwf.len_pos
    have hne : (0 : Nat) ≠ rb := by omega
    have hsize : sizeAt c.nodes 0 < sizeAt c.nodes rb := by
      have h0 := hwf.size_zero
      have hb := hwf.root_size rb hb1 hrblt hroot_b
      omega
    obtain ⟨c', hmerge, hspec⟩ := mergeRoots_spec hn0 hnb hne hsc
    refine ⟨c', rb, hfb, hb1, hfa, hsize, ?_, ?_, hspec.1⟩
    · unfold Client.connect_nodes
      rw [hfa, hfb]
      show (if 0 = rb then some c else mergeRoots c 0 rb) = some c'
      rw [if_neg hne]
      exact hmerge
    · obtain ⟨_, _, _, hbranch⟩ := hspec
      have hlt : n0.size < nb.size := by
        rw [sizeAt_eq hn0, sizeAt_eq hnb] at hsize
        exact hsize
      rw [if_pos hlt] at hbranch
      exact hbranch.1

/-- C10, witness: the first part instantiated right before the underflow —
after `add "A"` the call `connect "A" "X"` merges the placeholder under root 1
and drops the counter from 1 to 0. -/
theorem claim10_witness :
    ∃ c' ra, (Client.new.add_node "A").find_root_index "A" = some ra ∧ 1 ≤ ra ∧
      (Client.new.add_node "A").find_root_index "X" = some 0 ∧
      (Client.new.add_node "A").connect_nodes "A" "X" = some c' ∧
      parentAt c'.nodes 0 = ra ∧
      c'.set_count + 1 = (Client.new.add_node "A").set_count :=
  claim10_placeholder_merge.1 (Client.new.add_node "A") "A" "X"
    (@Reachable.step Client.new (Op.add "A") (Client.new.add_node "A") Reachable.new rfl)
    (by decide) (by decide) (by decide)

end Cozad
